import Mathlib

/-!
# Verification of the AI_LEGAL_ASSIST retrieval core

A shallow embedding, in Lean 4, of the retrieval pipeline of the
AI_LEGAL_ASSIST repository (backend/utils/vector_store.py,
backend/utils/pipeline.py, backend/app.py), together with theorems settling
the specification claims about it.

Modelling conventions:
* Python `str` is modelled as `List Char`.  Python whitespace (as used by
  `str.strip`, `str.split()` and the regex class `\s` on the ASCII range) is
  the six characters space, tab, newline, carriage return, vertical tab and
  form feed; non-ASCII Unicode whitespace is not modelled.
* Python dictionaries holding document records are modelled as
  insertion-ordered association lists, with the update-in-place semantics of
  dict assignment.
* The external sentence-embedding model and the FAISS inner-product index are
  opaque external collaborators; they are modelled by an abstract vector type
  `V`, an abstract deterministic encoding function and an abstract
  integer-valued similarity score.  `faiss.IndexFlatIP.search(q, k)` is
  modelled as exact scoring of every stored vector, ordered by descending
  score with ties broken by ascending global index, truncated to `k`
  entries (missing entries are padded with `-1` by FAISS and immediately
  skipped by the caller, so the model simply returns fewer entries).
* Exception-free Python code paths become total Lean functions; a Python
  function that may `raise` towards its caller returns an `Except` value.
-/

namespace Py

/-- ASCII whitespace, as treated by Python's `str.strip`/`str.split()` and
the regex class `\s`. -/
def isSpace (c : Char) : Bool :=
  c = ' ' || c = '\t' || c = '\n' || c = '\r' || c = '\x0b' || c = '\x0c'

/-- Horizontal whitespace: the regex class `[ \t]`. -/
def isHz (c : Char) : Bool :=
  c = ' ' || c = '\t'

/-- Python `str.strip()` (ASCII whitespace). -/
def strip (l : List Char) : List Char :=
  ((l.dropWhile isSpace).reverse.dropWhile isSpace).reverse

/-- Python `str.lower()` (ASCII letters). -/
def lower (l : List Char) : List Char :=
  l.map Char.toLower

/-- Python `str.split()` (split on whitespace runs, dropping empty pieces).
The first argument accumulates the current word, reversed. -/
def splitWhiteAux : List Char → List Char → List (List Char)
  | acc, [] => if acc = [] then [] else [acc.reverse]
  | acc, c :: cs =>
    if isSpace c then
      if acc = [] then splitWhiteAux [] cs else acc.reverse :: splitWhiteAux [] cs
    else
      splitWhiteAux (c :: acc) cs

/-- Python `str.split()` with no separator argument. -/
def splitWhite (l : List Char) : List (List Char) :=
  splitWhiteAux [] l

/-- Python `sep.join(parts)` for a one-character separator. -/
def joinSep (sep : Char) : List (List Char) → List Char
  | [] => []
  | [p] => p
  | p :: q :: qs => p ++ sep :: joinSep sep (q :: qs)

/-- Python `text.split(sep)` for a one-character separator (keeps empty
pieces, unlike `str.split()`). -/
def splitSep (sep : Char) : List Char → List (List Char)
  | [] => [[]]
  | c :: cs =>
    if c = sep then [] :: splitSep sep cs
    else
      match splitSep sep cs with
      | p :: ps => (c :: p) :: ps
      | [] => [[c]]

/-- Does `pat` occur as a contiguous substring?  Python's `pat in text`. -/
def containsSub (text pat : List Char) : Bool :=
  decide (pat <:+: text)

/-- Python `text.find(pat)`: index of the first occurrence, `none` for the
Python result `-1`. -/
def find? (text pat : List Char) : Option Nat :=
  match text with
  | [] => if pat = [] then some 0 else none
  | _ :: cs => if pat <+: text then some 0 else (find? cs pat).map (· + 1)

end Py

namespace Clean

/-! ## `backend/utils/pipeline.py`, `RAGPipeline._clean_ai_response` (lines 191–214)

Each `re.sub` of the Python source is embedded as a recursive scanner with
the same left-to-right, leftmost-match, non-overlapping semantics. -/

/-- Line 195, `re.sub(r'\*+', '', text)`: every maximal run of asterisks is
replaced by the empty string, i.e. every asterisk is removed. -/
def removeStars (l : List Char) : List Char :=
  l.filter (fun c => c ≠ '*')

/-- Do the first two characters both equal the delimiter? -/
def twoDelims (d : Char) : List Char → Bool
  | r1 :: r2 :: _ => r1 = d && r2 = d
  | _ => false

/-- Does the first character equal the delimiter? -/
def oneDelim (d : Char) : List Char → Bool
  | r1 :: _ => r1 = d
  | _ => false

/-- The substitution `re.sub(r'dd([^d]+)dd', r'\1', ·)` for a delimiter
character `d` (lines 198–199 with `d` the underscore resp. the asterisk).
At each position: if two delimiters are followed by a non-empty maximal run
of non-delimiter characters and then two delimiters again, the match is
replaced by the run and scanning resumes after it; otherwise one character
is emitted and scanning advances.  (`[^d]+` is greedy and the closing
delimiters immediately follow the maximal run, so no backtracking can
produce any other match.) -/
def subWrapped2 (d : Char) : List Char → List Char
  | [] => []
  | [c] => [c]
  | c :: c2 :: cs2 =>
    if c = d ∧ c2 = d then
      let run := cs2.takeWhile (fun x => x ≠ d)
      let rest := cs2.drop run.length
      if run ≠ [] ∧ twoDelims d rest then
        run ++ subWrapped2 d (rest.drop 2)
      else c :: subWrapped2 d (c2 :: cs2)
    else c :: subWrapped2 d (c2 :: cs2)
termination_by l => l.length
decreasing_by
  all_goals simp only [List.length_drop, List.length_cons]
  all_goals omega

/-- `re.sub(r'd([^d]+)d', r'\1', ·)` for a delimiter character `d`
(line 200 with `d` the asterisk). -/
def subWrapped1 (d : Char) : List Char → List Char
  | [] => []
  | c :: cs =>
    if c = d then
      let run := cs.takeWhile (fun x => x ≠ d)
      let rest := cs.drop run.length
      if run ≠ [] ∧ oneDelim d rest then
        run ++ subWrapped1 d (rest.drop 1)
      else c :: subWrapped1 d cs
    else c :: subWrapped1 d cs
termination_by l => l.length
decreasing_by
  all_goals simp only [List.length_drop, List.length_cons]
  all_goals omega

/-- One maximal whitespace run under line 203's
`re.sub(r'\n\s*\n\s*\n', '\n\n', ·)`.  Inside a maximal whitespace run
the leftmost match starts at the run's first newline, and greedy `\s*`
extends it to the run's last newline; the match (first through last
newline) is replaced by two newlines.  A run with at most two newlines
contains no match and is kept. -/
def emitRun (run : List Char) : List Char :=
  if 3 ≤ run.count '\n' then
    run.takeWhile (fun c => c ≠ '\n') ++
      '\n' :: '\n' :: (run.reverse.takeWhile (fun c => c ≠ '\n')).reverse
  else run

mutual

/-- Line 203: collapse every maximal whitespace run containing three or
more newlines. -/
def collapseNL : List Char → List Char
  | [] => []
  | c :: cs =>
    if Py.isSpace c then collapseNLRun [c] cs else c :: collapseNL cs
termination_by l => l.length

/-- Helper of `collapseNL`: consume the rest of a whitespace run, the run
so far accumulated reversed in `runRev`. -/
def collapseNLRun (runRev : List Char) : List Char → List Char
  | [] => emitRun runRev.reverse
  | c :: cs =>
    if Py.isSpace c then collapseNLRun (c :: runRev) cs
    else emitRun runRev.reverse ++ c :: collapseNL cs
termination_by l => l.length

end

mutual

/-- Line 204, `re.sub(r'[ \t]+', ' ', ·)`: replace every maximal run of
spaces and tabs by a single space. -/
def collapseHS : List Char → List Char
  | [] => []
  | c :: cs =>
    if Py.isHz c then ' ' :: collapseHSSkip cs else c :: collapseHS cs
termination_by l => l.length

/-- Helper of `collapseHS`: skip the rest of a horizontal-whitespace run. -/
def collapseHSSkip : List Char → List Char
  | [] => []
  | c :: cs =>
    if Py.isHz c then collapseHSSkip cs else c :: collapseHS cs
termination_by l => l.length

end

/-- Lines 207–208: `'\n'.join(line.strip() for line in text.split('\n'))`. -/
def stripLines (l : List Char) : List Char :=
  Py.joinSep '\n' ((Py.splitSep '\n' l).map Py.strip)

/-- `RAGPipeline._clean_ai_response` (lines 191–214).  The `try` body never
raises, so the `except` fallback (line 214) is unreachable.  Lines 199 and
200 (`**bold**` and `*italic*` removal) can never match, because line 195
already removed every asterisk; they are still applied here, faithfully. -/
def cleanAiResponse (text : List Char) : List Char :=
  let t1 := removeStars text
  let t2 := subWrapped2 '_' t1
  let t3 := subWrapped2 '*' t2
  let t4 := subWrapped1 '*' t3
  let t5 := collapseNL t4
  let t6 := collapseHS t5
  let t7 := stripLines t6
  Py.strip t7

end Clean

namespace App

/-! ## `backend/app.py`, `basic_document_processing` (lines 152–184)

The fallback chunker: split the extracted text into words, join groups of
200 words with single spaces, and substitute one placeholder chunk when no
word was extracted.  This is the in-repository implementation of the spec's
Chunker contract (`DocumentProcessor._split_text` merely delegates to the
external langchain `RecursiveCharacterTextSplitter`). -/

/-- `words[i : i + 200]` grouping loop of `basic_document_processing` with
its `chunk_size = 200` (words per chunk):
`for i in range(0, len(words), chunk_size): chunks.append(' '.join(...))`.
Note `(w :: ws).drop 200 = ws.drop 199`. -/
def groupWords : List (List Char) → List (List Char)
  | [] => []
  | w :: ws =>
    Py.joinSep ' ' ((w :: ws).take 200) :: groupWords (ws.drop 199)
termination_by ws => ws.length
decreasing_by
  simp only [List.length_drop, List.length_cons]
  omega

/-- The chunk list produced by `basic_document_processing` for extracted
text `text` of file `filename` (lines 159–168): word groups of 200, or a
single placeholder chunk when no words were extracted. -/
def basicChunks (filename text : List Char) : List (List Char) :=
  let words := Py.splitWhite text
  let chunks := groupWords words
  if chunks = [] then
    [("File ".data ++ filename ++ " uploaded but no text extracted".data)]
  else chunks

end App

namespace VS

/-! ## `backend/utils/vector_store.py`, class `VectorStore`

The embedding model (`SentenceTransformer.encode`) and the FAISS index
(`faiss.IndexFlatIP`) are external collaborators.  They are modelled by an
abstract vector type `V` with `encode : List Char → V` (the spec fixes the
embedding function to be deterministic per chunk text) and an abstract
similarity score `sim : V → V → Int` (inner product of the normalized
vectors; an arbitrary linearly ordered score).  `index.search(q, k)` of the
exact index `IndexFlatIP` returns the `k` best entries by descending score;
ties are broken by ascending global index, deterministically, and when
fewer than `k` vectors exist FAISS pads with index `-1`, which
`VectorStore.search` skips — equivalently, the model returns the shorter
list. -/

/-- One value of `self.documents[document_id]` (lines 40–45): the chunk
texts and the owned global-index range.  The `metadata` field is carried by
the code but never read by the operations modelled here. -/
structure DocData (V : Type) where
  chunks : List (List Char)
  start_idx : Nat
  end_idx : Nat
deriving DecidableEq

/-- The in-memory state of `VectorStore`: `self.documents` (an
insertion-ordered dict) and the FAISS index contents, one vector per global
index; `index = None` is identified with the empty vector list. -/
structure Store (V : Type) where
  documents : List (String × DocData V)
  indexVecs : List V
deriving DecidableEq

/-- The store as built by `__init__` when nothing is restored. -/
def empty (V : Type) : Store V := ⟨[], []⟩

/-- The dict keys of `self.documents`. -/
def keys {V : Type} (s : Store V) : List String := s.documents.map Prod.fst

/-- Python dict assignment `self.documents[document_id] = ...`: replace in
place if present (keeping insertion order), else append. -/
def setDoc {V : Type} (docs : List (String × DocData V)) (did : String)
    (d : DocData V) : List (String × DocData V) :=
  if did ∈ docs.map Prod.fst then
    docs.map (fun kv => if kv.1 = did then (did, d) else kv)
  else docs ++ [(did, d)]

/-- `VectorStore.add_document` (lines 22–51): embed the chunks, append to
the index starting at `start_idx = self.index.ntotal`, and record the
range `[start_idx, start_idx + len(chunks))`. -/
def addDocument {V : Type} (encode : List Char → V) (s : Store V)
    (did : String) (chunks : List (List Char)) : Store V :=
  let start := s.indexVecs.length
  { documents := setDoc s.documents did ⟨chunks, start, start + chunks.length⟩,
    indexVecs := s.indexVecs ++ chunks.map encode }

/-- `VectorStore.delete_document` (lines 100–106): remove the dict entry;
the FAISS index keeps the now-orphaned vectors. -/
def deleteDocument {V : Type} (s : Store V) (did : String) : Store V :=
  { s with documents := s.documents.filter (fun kv => kv.1 ≠ did) }

/-- `VectorStore._get_chunk_by_index` (lines 85–92): scan the documents in
insertion order for the first whose range contains the global index and
whose local index is within its chunk list; `none` models the Python
`(None, None)`. -/
def getChunkByIndex {V : Type} (s : Store V) (idx : Nat) :
    Option (List Char × String) :=
  s.documents.findSome? (fun kv =>
    if kv.2.start_idx ≤ idx ∧ idx < kv.2.end_idx ∧
        idx - kv.2.start_idx < kv.2.chunks.length then
      some (kv.2.chunks.getD (idx - kv.2.start_idx) [], kv.1)
    else none)

/-- Candidate ordering of the modelled FAISS search: higher score first,
ties by ascending global index. -/
def candRel (sc : Nat → Int) (i j : Nat) : Prop :=
  sc j < sc i ∨ (sc i = sc j ∧ i ≤ j)

instance candRel.decRel (sc : Nat → Int) : DecidableRel (candRel sc) :=
  fun i j => by unfold candRel; infer_instance

instance candRel.total (sc : Nat → Int) : IsTotal Nat (candRel sc) := by
  refine ⟨fun i j => ?_⟩
  unfold candRel
  rcases Nat.le_total i j with h | h <;> omega

instance candRel.trans (sc : Nat → Int) : IsTrans Nat (candRel sc) := by
  refine ⟨fun a b c hab hbc => ?_⟩
  unfold candRel at *
  omega

/-- Score of global index `i` for query vector `qv`. -/
def scoresOf {V : Type} [Inhabited V] (sim : V → V → Int) (qv : V)
    (vecs : List V) (i : Nat) : Int :=
  sim qv (vecs.getD i default)

/-- All global indices, best first (the modelled FAISS result order). -/
def sortedCandidates (sc : Nat → Int) (n : Nat) : List Nat :=
  List.insertionSort (candRel sc) (List.range n)

/-- Lines 71–74: resolve a candidate index and apply the truthiness check
`if chunk_text and (document_id is None or chunk_doc_id == document_id)`
(an empty chunk text is falsy and is skipped). -/
def passFilter {V : Type} (s : Store V) (document_id : Option String)
    (sc : Nat → Int) (i : Nat) : Option (List Char × Int) :=
  match getChunkByIndex s i with
  | some (t, did) =>
    if t ≠ [] ∧ (document_id = none ∨ document_id = some did) then
      some (t, sc i)
    else none
  | none => none

/-- The result loop of `VectorStore.search` (lines 65–77): append passing
candidates in order and break as soon as `len(results) >= top_k` (checked
after each iteration). -/
def searchLoop (pass : Nat → Option (List Char × Int)) (top_k : Nat) :
    List Nat → List (List Char × Int) → List (List Char × Int)
  | [], acc => acc
  | i :: rest, acc =>
    let acc2 := match pass i with
      | some r => acc ++ [r]
      | none => acc
    if top_k ≤ acc2.length then acc2 else searchLoop pass top_k rest acc2

/-- `VectorStore.search` (lines 53–83): empty result on an empty index;
otherwise ask the (modelled) FAISS index for the best `top_k * 2`
candidates and filter them through `_get_chunk_by_index`. -/
def search {V : Type} [Inhabited V] (sim : V → V → Int)
    (encode : List Char → V) (s : Store V) (query : List Char)
    (document_id : Option String) (top_k : Nat) : List (List Char × Int) :=
  if s.indexVecs.length = 0 then []
  else
    let sc := scoresOf sim (encode query) s.indexVecs
    let cands := (sortedCandidates sc s.indexVecs.length).take (top_k * 2)
    searchLoop (passFilter s document_id sc) top_k cands []

/-- The mutating operations of the store. -/
inductive Op where
  | add (did : String) (chunks : List (List Char))
  | del (did : String)

def applyOp {V : Type} (encode : List Char → V) (s : Store V) : Op → Store V
  | .add did chunks => addDocument encode s did chunks
  | .del did => deleteDocument s did

def runFrom {V : Type} (encode : List Char → V) (s : Store V)
    (ops : List Op) : Store V :=
  ops.foldl (applyOp encode) s

/-- The store reached from a fresh empty store by a sequence of operations. -/
def run {V : Type} (encode : List Char → V) (ops : List Op) : Store V :=
  runFrom encode (empty V) ops

/-- The `(start_idx, end_idx)` ranges assigned by the `add` operations of a
trace, replayed from index total `n`. -/
def assignedRanges : Nat → List Op → List (Nat × Nat)
  | _, [] => []
  | n, Op.add _ chunks :: ops =>
    (n, n + chunks.length) :: assignedRanges (n + chunks.length) ops
  | n, Op.del _ :: ops => assignedRanges n ops

/-- The state invariant of the vector store: each stored range is
contiguous of length `len(chunks)`, lies inside the index, keys are unique,
and distinct entries own disjoint ranges. -/
def Inv {V : Type} (s : Store V) : Prop :=
  (∀ kv ∈ s.documents, kv.2.end_idx = kv.2.start_idx + kv.2.chunks.length) ∧
  (∀ kv ∈ s.documents, kv.2.end_idx ≤ s.indexVecs.length) ∧
  (s.documents.map Prod.fst).Nodup ∧
  s.documents.Pairwise
    (fun a b => a.2.end_idx ≤ b.2.start_idx ∨ b.2.end_idx ≤ a.2.start_idx)

/-- Global index `g` holds a live chunk: some stored document owns it, its
chunk text is non-empty (Python truthiness at line 73), and it matches the
optional document filter. -/
def Live {V : Type} (s : Store V) (document_id : Option String) (g : Nat) :
    Prop :=
  ∃ kv ∈ s.documents, kv.2.start_idx ≤ g ∧ g < kv.2.end_idx ∧
    kv.2.chunks.getD (g - kv.2.start_idx) [] ≠ [] ∧
    (document_id = none ∨ document_id = some kv.1)

/-- `VectorStore._load_store` (lines 124–140) as a function of the two
persisted artefacts.  `none` models a missing file (the `os.path.exists`
guard skips it); `Except.error` models a file that fails to deserialize
(`faiss.read_index` or `pickle.load` raising), which is caught by the
shared `except` handler that resets **both** the index and the documents.
A missing file is skipped individually and resets nothing.  The function is
total: no exception leaves `__init__`. -/
def loadStore {V : Type} (indexFile : Option (Except Unit (List V)))
    (docsFile : Option (Except Unit (List (String × DocData V)))) : Store V :=
  match indexFile with
  | some (.error _) => ⟨[], []⟩
  | _ =>
    let idx := match indexFile with
      | some (.ok i) => i
      | _ => []
    match docsFile with
    | some (.error _) => ⟨[], []⟩
    | some (.ok d) => ⟨d, idx⟩
    | none => ⟨[], idx⟩

/-- `VectorStore._save_store` (lines 108–122) swallows its exception and
only prints; the log of printed error lines is the only trace of a failed
save. -/
def saveStoreLog (saveOk : Bool) : List (List Char) :=
  if saveOk then [] else ["Failed to save vector store".data]

/-- `add_document` with the persistence outcome made explicit: the state
mutation, the outcome visible to the caller (always a normal return — the
`Except` component models a Python exception propagating to the caller,
which never happens for a save failure), and the printed log. -/
def addDocumentChecked {V : Type} (encode : List Char → V) (saveOk : Bool)
    (s : Store V) (did : String) (chunks : List (List Char)) :
    Store V × Except (List Char) Unit × List (List Char) :=
  (addDocument encode s did chunks, Except.ok (), saveStoreLog saveOk)

/-- `delete_document` with the persistence outcome made explicit;
`_save_store` runs only when the document was present. -/
def deleteDocumentChecked {V : Type} (saveOk : Bool) (s : Store V)
    (did : String) : Store V × Except (List Char) Unit × List (List Char) :=
  (deleteDocument s did, Except.ok (),
    if did ∈ keys s then saveStoreLog saveOk else [])

end VS

namespace Pipe

/-! ## `backend/utils/pipeline.py`, `RAGPipeline` analysis and Q&A

The external model (`google.generativeai`) is a free parameter: an
`AIOutcome` says whether the pipeline was constructed without a usable
model (`absent`, i.e. `ai_available = False`), whether a
`generate_content` call raises (`failure msg`, the exception text), or
what response text it returns (`success raw`, with `raw = []` for a
falsy `response`/`response.text`).  Documents are their extracted string
contents; timestamps (`ai_processed_at`, `created_at`) and the prompt
text are not modelled.  All `try/except` blocks whose bodies are pure
string manipulation cannot raise and are embedded by their `try` body. -/

/-- Outcome of the external AI model for one call. -/
inductive AIOutcome where
  | absent
  | failure (msg : List Char)
  | success (raw : List Char)
deriving DecidableEq

/-- `self.ai_available`. -/
def aiAvailable : AIOutcome → Bool
  | .absent => false
  | _ => true

/-- Python `sep.join(parts)` for a multi-character separator. -/
def joinStr (sep : List Char) : List (List Char) → List Char
  | [] => []
  | [p] => p
  | p :: q :: qs => p ++ sep ++ joinStr sep (q :: qs)

/-- The analysis dictionary built by `_analyze_basic`,
`_create_error_analysis` and `_analyze_with_ai` (only the keys the
pipeline itself reads or the spec mentions). -/
structure Analysis where
  document_id : String
  document_type : List Char
  summary : List Char
  risks_analysis : List Char
  key_terms : List Char
  document_length : Nat
  chunk_count : Nat
  word_count : Nat
  error : Option (List Char)
  ai_enhanced : Bool
  ai_error : Option (List Char)
  ai_analysis_full : Option (List Char)
deriving DecidableEq

/-- `RAGPipeline._create_error_analysis` (lines 146–159). -/
def createErrorAnalysis (document_id : String) (error_msg : List Char) :
    Analysis :=
  { document_id := document_id
    document_type := "Error".data
    summary := "Document processing encountered an issue: ".data ++ error_msg
    risks_analysis := "Could not analyze risks due to processing error".data
    key_terms := "Could not extract key terms".data
    document_length := 0
    chunk_count := 0
    word_count := 0
    error := some error_msg
    ai_enhanced := false
    ai_error := none
    ai_analysis_full := none }

/-- `RAGPipeline._extract_full_text` (lines 161–189): each document
contributes its stripped content when non-empty; parts are joined by a
blank line and the result is capped at 50000 characters. -/
def extractFullText (docs : List (List Char)) : List Char :=
  if (joinStr "\n\n".data (docs.filterMap
      (fun c => if Py.strip c = [] then none else some (Py.strip c)))).length
      > 50000 then
    (joinStr "\n\n".data (docs.filterMap
      (fun c => if Py.strip c = [] then none else some (Py.strip c)))).take
        50000 ++ "\n\n[Content truncated for processing...]".data
  else
    joinStr "\n\n".data (docs.filterMap
      (fun c => if Py.strip c = [] then none else some (Py.strip c)))

/-- Line 221: `if not text: text = "No content"`. -/
def basicText (text : List Char) : List Char :=
  if text = [] then "No content".data else text

/-- Lines 228–238: keyword-based document type detection on the lowercased
text. -/
def docTypeOf (tl : List Char) : List Char :=
  if ["employment".data, "employee".data, "job".data,
      "salary".data].any (fun w => Py.containsSub tl w) then
    "Employment Contract".data
  else if ["service".data, "services".data,
      "consultant".data].any (fun w => Py.containsSub tl w) then
    "Service Agreement".data
  else if ["confidential".data, "non-disclosure".data,
      "nda".data].any (fun w => Py.containsSub tl w) then
    "Non-Disclosure Agreement".data
  else if ["lease".data, "rent".data,
      "premises".data].any (fun w => Py.containsSub tl w) then
    "Lease Agreement".data
  else if ["purchase".data, "sale".data, "buy".data,
      "sell".data].any (fun w => Py.containsSub tl w) then
    "Purchase Agreement".data
  else "Legal Document".data

/-- Lines 241–253: the four keyword-triggered risk entries, in source
order. -/
def risksOf (tl : List Char) : List (List Char) :=
  (if Py.containsSub tl "termination".data ||
      Py.containsSub tl "terminate".data then
    ["Termination clauses detected".data] else []) ++
  (if Py.containsSub tl "liability".data then
    ["Liability terms found".data] else []) ++
  (if Py.containsSub tl "payment".data || Py.containsSub tl "fee".data then
    ["Payment obligations identified".data] else []) ++
  (if Py.containsSub tl "penalty".data || Py.containsSub tl "fine".data then
    ["Penalty clauses found".data] else [])

/-- Lines 290–299: the keyword table of `_extract_basic_terms`. -/
def termPatterns : List (List Char × List (List Char)) :=
  [("Contract Duration".data,
      ["term".data, "duration".data, "period".data]),
    ("Payment Terms".data,
      ["payment".data, "fee".data, "compensation".data, "salary".data]),
    ("Termination".data,
      ["termination".data, "end".data, "expire".data]),
    ("Confidentiality".data,
      ["confidential".data, "non-disclosure".data, "proprietary".data]),
    ("Liability".data,
      ["liability".data, "responsible".data, "damages".data]),
    ("Governing Law".data,
      ["governing".data, "jurisdiction".data, "court".data])]

/-- `RAGPipeline._extract_basic_terms` (lines 282–315). -/
def extractBasicTerms (text_lower : List Char) : List (List Char) :=
  if text_lower = [] then
    ["No text available for term extraction".data]
  else if (termPatterns.filter
      (fun p => p.2.any (fun k => Py.containsSub text_lower k))) = [] then
    ["Document Type: Standard legal document format detected".data]
  else
    (termPatterns.filter
      (fun p => p.2.any (fun k => Py.containsSub text_lower k))).map
      (fun p => p.1 ++ ": Found relevant clauses in document".data)

/-- Line 262: the summary line of the basic analysis. -/
def summaryOf (text : List Char) : List Char :=
  "This appears to be a ".data ++ docTypeOf (Py.lower text) ++
    " containing ".data ++ (Nat.repr (Py.splitWhite text).length).data ++
    " words. The document includes standard legal provisions and clauses typical for this type of agreement.".data

/-- Lines 263–267: the `risks_analysis` field of the basic analysis. -/
def risksAnalysisOf (text : List Char) : List Char :=
  if risksOf (Py.lower text) = [] then
    "No obvious risk indicators found in basic analysis.".data
  else
    "Detected ".data ++ (Nat.repr (risksOf (Py.lower text)).length).data ++
      " potential areas requiring attention: ".data ++
      joinStr "; ".data (risksOf (Py.lower text))

/-- Lines 268–270: the `key_terms` field of the basic analysis. -/
def keyTermsOf (text : List Char) : List Char :=
  if extractBasicTerms (Py.lower text) = [] then
    "- No key terms extracted".data
  else
    joinStr "\n".data ((extractBasicTerms (Py.lower text)).map
      (fun t => "- ".data ++ t))

/-- `RAGPipeline._analyze_basic` (lines 216–280).  Its `try/except`
wrappers guard pure string code and cannot fire. -/
def analyzeBasic (text0 : List Char) (document_id : String) : Analysis :=
  { document_id := document_id
    document_type := docTypeOf (Py.lower (basicText text0))
    summary := summaryOf (basicText text0)
    risks_analysis := risksAnalysisOf (basicText text0)
    key_terms := keyTermsOf (basicText text0)
    document_length := (basicText text0).length
    chunk_count := if basicText text0 = [] then 0
      else (Py.splitSep '\n' (basicText text0)).length
    word_count := (Py.splitWhite (basicText text0)).length
    error := none
    ai_enhanced := false
    ai_error := none
    ai_analysis_full := none }

/-- Python `text.find(pat, start)`: first occurrence at or after
`start`, as an absolute index. -/
def findFrom (text pat : List Char) (start : Nat) : Option Nat :=
  (Py.find? (text.drop start) pat).map (· + start)

/-- Lines 409–413 / 437–441: the end of an extracted section — the least
end-marker position found at or after `start_pos + 50`, defaulting to the
text length. -/
def endPosOf (ai_text : List Char) (start : Nat)
    (endMarkers : List (List Char)) : Nat :=
  (endMarkers.filterMap
    (fun m => findFrom (Py.lower ai_text) m (start + 50))).foldr min
    ai_text.length

/-- The stripped slice `ai_text[start_pos:end_pos].strip()` of the
section extractors. -/
def sliceSection (ai_text : List Char) (start : Nat)
    (endMarkers : List (List Char)) : List Char :=
  Py.strip ((ai_text.drop start).take (endPosOf ai_text start endMarkers - start))

/-- Start markers of `_extract_risks_from_ai_response` (line 398), tried
in list order. -/
def riskStartMarkers : List (List Char) :=
  ["key risks".data, "risks:".data, "risk assessment".data,
    "concerns".data]

/-- End markers of `_extract_risks_from_ai_response` (line 399). -/
def riskEndMarkers : List (List Char) :=
  ["important terms".data, "key terms".data, "critical dates".data,
    "financial".data]

/-- Start markers of `_extract_terms_from_ai_response` (line 426). -/
def termStartMarkers : List (List Char) :=
  ["important terms".data, "key terms".data, "terms:".data]

/-- End markers of `_extract_terms_from_ai_response` (line 427). -/
def termEndMarkers : List (List Char) :=
  ["critical dates".data, "financial".data, "conclusion".data]

/-- `RAGPipeline._extract_risks_from_ai_response` (lines 394–421): slice
between the first found start marker and the nearest end marker, clean,
cap at 500 characters. -/
def extractRisks (ai_text : List Char) : List Char :=
  match riskStartMarkers.findSome?
      (fun m => Py.find? (Py.lower ai_text) m) with
  | none => "Risk analysis completed by AI".data
  | some start =>
    if 500 <
        (Clean.cleanAiResponse (sliceSection ai_text start riskEndMarkers)).length then
      (Clean.cleanAiResponse (sliceSection ai_text start riskEndMarkers)).take
        500 ++ "...".data
    else Clean.cleanAiResponse (sliceSection ai_text start riskEndMarkers)

/-- `RAGPipeline._extract_terms_from_ai_response` (lines 423–450). -/
def extractTerms (ai_text : List Char) : List Char :=
  match termStartMarkers.findSome?
      (fun m => Py.find? (Py.lower ai_text) m) with
  | none => "Key terms identified by AI".data
  | some start =>
    if 800 <
        (Clean.cleanAiResponse (sliceSection ai_text start termEndMarkers)).length then
      (Clean.cleanAiResponse (sliceSection ai_text start termEndMarkers)).take
        800 ++ "...".data
    else Clean.cleanAiResponse (sliceSection ai_text start termEndMarkers)

/-- `RAGPipeline._extract_doc_type_from_ai_response` (lines 380–392):
first line mentioning a type marker and containing a colon yields the
cleaned text after its first colon. -/
def extractDocType (ai_text : List Char) : List Char :=
  match (Py.splitSep '\n' ai_text).find? (fun line =>
      (Py.containsSub (Py.lower line) "document type".data ||
        Py.containsSub (Py.lower line) "type:".data) &&
      line.contains ':') with
  | some line =>
    Py.strip (Clean.removeStars
      (Py.strip ((line.dropWhile (fun c => c ≠ ':')).drop 1)))
  | none => "Legal Document".data

/-- Result of `_analyze_with_ai`: either an `ai_error` entry or the full
AI analysis dictionary. -/
inductive AIAnalysis where
  | err (msg : List Char)
  | aiOk (summary ai_full doc_type risks terms : List Char)
deriving DecidableEq

/-- Lines 363–373: the successful `_analyze_with_ai` dictionary built
from the cleaned response text. -/
def aiOkOf (ai_text : List Char) : AIAnalysis :=
  .aiOk (if 1000 < ai_text.length then ai_text.take 1000 ++ "...".data
      else ai_text)
    ai_text (extractDocType ai_text) (extractRisks ai_text)
    (extractTerms ai_text)

/-- `RAGPipeline._analyze_with_ai` (lines 317–378): availability and
minimum-length guards, then the model call; every exception is caught and
becomes an `ai_error` entry, so the function is total. -/
def analyzeWithAI (ai : AIOutcome) (text : List Char) : AIAnalysis :=
  match ai with
  | .absent => .err "AI not available".data
  | .failure msg =>
    if text = [] ∨ (Py.strip text).length < 50 then
      .err "Insufficient text for AI analysis".data
    else .err msg
  | .success raw =>
    if text = [] ∨ (Py.strip text).length < 50 then
      .err "Insufficient text for AI analysis".data
    else if raw = [] then .err "Empty AI response".data
    else aiOkOf (Clean.cleanAiResponse (Py.strip raw))

/-- `RAGPipeline.analyze_document` (lines 89–144): empty input and empty
extracted text short-circuit to an error analysis; otherwise the basic
analysis, updated by the AI dictionary when AI is available and the
stripped text is longer than 50 characters (`dict.update` overwrites the
shared keys; an `ai_error` entry only adds that key). -/
def analyzeDocument (ai : AIOutcome) (docs : List (List Char))
    (document_id : String) : Analysis :=
  if docs = [] then
    createErrorAnalysis document_id "No documents provided".data
  else if extractFullText docs = [] ∨
      Py.strip (extractFullText docs) = [] then
    createErrorAnalysis document_id "No text content found".data
  else if aiAvailable ai = true ∧
      50 < (Py.strip (extractFullText docs)).length then
    match analyzeWithAI ai (extractFullText docs) with
    | .err msg =>
      { analyzeBasic (extractFullText docs) document_id with
          ai_error := some msg }
    | .aiOk s af dt r t =>
      { analyzeBasic (extractFullText docs) document_id with
          ai_enhanced := true, summary := s, ai_analysis_full := some af,
          document_type := dt, risks_analysis := r, key_terms := t }
  else analyzeBasic (extractFullText docs) document_id

/-- The pipeline state read by `answer_question`: `self.documents`
(document id to stored `full_text`) and `self.vector_store` (document id
to chunk contents). -/
structure PState where
  documents : List (String × List Char)
  vstore : List (String × List (List Char))
deriving DecidableEq

/-- Python `key in d` / `d[key]` on the modelled dictionaries. -/
def lookupId {β : Type} (l : List (String × β)) (k : String) : Option β :=
  (l.find? (fun kv => kv.1 == k)).map Prod.snd

/-- Lines 500–509: the document text used for answering — the stored
`full_text` if the id is in `self.documents`, else the joined vector
store contents. -/
def fullTextOf (st : PState) (document_id : String) : List Char :=
  match lookupId st.documents document_id with
  | some t => t
  | none =>
    match lookupId st.vstore document_id with
    | some docs => Py.joinSep '\n' docs
    | none => []

/-- Line 583: the stop-word list of `_answer_basic`. -/
def stopWords : List (List Char) :=
  ["what".data, "when".data, "where".data, "how".data, "does".data,
    "this".data, "that".data, "they".data, "with".data, "the".data,
    "and".data, "or".data]

/-- Line 584: question keywords longer than three characters that are not
stop words. -/
def questionWords (question : List Char) : List (List Char) :=
  (Py.splitWhite (Py.lower question)).filter
    (fun w => decide (3 < w.length) && !stopWords.contains w)

/-- Line 585: question keywords that occur in the lowercased text. -/
def foundWords (text question : List Char) : List (List Char) :=
  (questionWords question).filter
    (fun w => Py.containsSub (Py.lower text) w)

/-- Line 589: non-empty stripped sentences, split on periods. -/
def sentencesOf (text : List Char) : List (List Char) :=
  (Py.splitSep '.' text).filterMap
    (fun s => if Py.strip s = [] then none else some (Py.strip s))

/-- Lines 592–599: the first up to three sentences containing a found
keyword. -/
def relevantSentences (text question : List Char) : List (List Char) :=
  ((sentencesOf text).filter
    (fun s => (foundWords text question).any
      (fun w => Py.containsSub (Py.lower s) w))).take 3

/-- Lines 603–608: the numbered answer body, each sentence capped at 200
characters. -/
def numberedAnswers (relevant : List (List Char)) : List Char :=
  ((List.range relevant.length).zip relevant).foldl
    (fun acc p => acc ++ (Nat.repr (p.1 + 1)).data ++ ". ".data ++
      (if 200 < p.2.length then p.2.take 200 ++ "...".data else p.2) ++
      "\n\n".data) []

/-- `RAGPipeline._answer_basic` (lines 573–619): keyword matching with a
built answer, or the not-found message.  Total: every `except` branch
guards pure string code. -/
def answerBasic (text question : List Char) : List Char :=
  if text = [] ∨ question = [] then
    "Invalid input for question processing.".data
  else if foundWords text question ≠ [] ∧
      relevantSentences text question ≠ [] then
    "Based on the document content:\n\n".data ++
      numberedAnswers (relevantSentences text question) ++
      "Note: This is a basic keyword search. For more detailed AI-powered answers, ensure your Gemini API key is properly configured.".data
  else
    "I couldn't find specific information about '".data ++ question ++
      "' in the document. Try rephrasing your question or using different keywords. The document appears to contain information about legal terms, contracts, agreements, or similar topics.".data

/-- `RAGPipeline._answer_with_ai` (lines 538–571) on a successful model
call: an empty response text yields the fixed message, otherwise the
stripped response is cleaned. -/
def answerWithAI (raw : List Char) : List Char :=
  if raw = [] then
    "I received an empty response from the AI. Please try rephrasing your question.".data
  else Clean.cleanAiResponse (Py.strip raw)

/-- `RAGPipeline.answer_question` (lines 485–536): input guards, document
lookup, the short-text guard, then the AI path (whose exceptions fall
through to the basic path) or the basic keyword path. -/
def answerQuestion (ai : AIOutcome) (st : PState) (document_id : String)
    (question : List Char) : List Char :=
  if document_id = "" ∨ question = [] then
    "Error: Document ID and question are required.".data
  else if lookupId st.vstore document_id = none ∧
      lookupId st.documents document_id = none then
    "Document not found. Please upload and analyze the document first.".data
  else if fullTextOf st document_id = [] ∨
      (Py.strip (fullTextOf st document_id)).length < 20 then
    "Document text is not available or too short for analysis. Please try re-uploading the document.".data
  else
    match ai with
    | .success raw => answerWithAI raw
    | _ => answerBasic (fullTextOf st document_id) question

end Pipe

/-- A prefix is an infix. -/
theorem infOfPre {α : Type} {u v : List α} (h : u <+: v) : u <:+: v := by
  obtain ⟨t, ht⟩ := h
  exact ⟨[], t, by simpa using ht⟩

/-- A suffix is an infix. -/
theorem infOfSuf {α : Type} {u v : List α} (h : u <:+ v) : u <:+: v := by
  obtain ⟨t, ht⟩ := h
  exact ⟨t, [], by simpa using ht⟩

namespace Py

/-- `dropWhile` keeps every element that fails the predicate. -/
theorem mem_dropWhile_of_not {p : Char → Bool} {c : Char} {l : List Char}
    (hc : c ∈ l) (hp : ¬p c) : c ∈ l.dropWhile p := by
  induction l with
  | nil => cases hc
  | cons a as ih =>
    rw [List.dropWhile_cons]
    rcases List.mem_cons.mp hc with rfl | hmem
    · simp [hp]
    · split
      · exact ih hmem
      · exact List.mem_cons_of_mem _ hmem

/-- `strip` keeps every non-whitespace element. -/
theorem mem_strip {c : Char} {l : List Char} (hc : c ∈ l) (hp : ¬isSpace c) :
    c ∈ strip l := by
  unfold strip
  rw [List.mem_reverse]
  exact mem_dropWhile_of_not (by rw [List.mem_reverse]; exact mem_dropWhile_of_not hc hp) hp

/-- `strip l` is a sublist of `l`. -/
theorem strip_sublist (l : List Char) : List.Sublist (strip l) l := by
  unfold strip
  have h1 : List.Sublist ((l.dropWhile isSpace).reverse.dropWhile isSpace)
      (l.dropWhile isSpace).reverse := List.dropWhile_sublist ..
  have h2 := h1.reverse
  simp only [List.reverse_reverse] at h2
  exact h2.trans (List.dropWhile_sublist ..)

/-- `strip l` is an infix (a prefix of a suffix) of `l`. -/
theorem strip_infOf (l : List Char) : strip l <:+: l := by
  unfold strip
  have h1 : l.dropWhile isSpace <:+ l := List.dropWhile_suffix ..
  have h2 : ((l.dropWhile isSpace).reverse.dropWhile isSpace).reverse <+:
      l.dropWhile isSpace := by
    have hsuf : (l.dropWhile isSpace).reverse.dropWhile isSpace <:+
        (l.dropWhile isSpace).reverse := List.dropWhile_suffix ..
    obtain ⟨t, ht⟩ := hsuf
    exact ⟨t.reverse, by
      have := congrArg List.reverse ht
      simpa [List.reverse_append] using this⟩
  exact (infOfPre h2).trans (infOfSuf h1)

/-- `strip` is right-trim after left-trim. -/
theorem strip_eq_rdrop (l : List Char) :
    strip l = List.rdropWhile isSpace (l.dropWhile isSpace) := rfl

/-- Stripping is idempotent. -/
theorem strip_idem (l : List Char) : strip (strip l) = strip l := by
  rw [strip_eq_rdrop, strip_eq_rdrop]
  set x := l.dropWhile isSpace with hx
  have hxid : x.dropWhile isSpace = x := by
    rw [hx]; exact List.dropWhile_idempotent ..
  have hdw : (List.rdropWhile isSpace x).dropWhile isSpace =
      List.rdropWhile isSpace x := by
    cases hr : List.rdropWhile isSpace x with
    | nil => simp
    | cons a as =>
      have hpre : List.rdropWhile isSpace x <+: x := List.rdropWhile_prefix ..
      rw [hr] at hpre
      obtain ⟨t, ht⟩ := hpre
      have h0 := List.dropWhile_eq_self_iff.mp hxid
      rw [← ht] at h0
      have ha : ¬isSpace a := by simpa using h0 (by simp)
      simp [List.dropWhile_cons, ha]
  rw [hdw, List.rdropWhile_idempotent]

/-- `splitSep` never returns the empty list of pieces. -/
theorem splitSep_ne_nil (sep : Char) (l : List Char) : splitSep sep l ≠ [] := by
  cases l with
  | nil => simp [splitSep]
  | cons c cs =>
    rw [splitSep]
    split
    · simp
    · cases hsp : splitSep sep cs <;> simp

/-- `joinSep` after `splitSep` restores the original string. -/
theorem joinSep_splitSep (sep : Char) (l : List Char) :
    joinSep sep (splitSep sep l) = l := by
  induction l with
  | nil => rfl
  | cons c cs ih =>
    rw [splitSep]
    split
    · rename_i hc
      subst hc
      cases hsp : splitSep c cs with
      | nil => exact absurd hsp (splitSep_ne_nil _ _)
      | cons p ps =>
        rw [hsp] at ih
        rw [joinSep]
        simpa using ih
    · cases hsp : splitSep sep cs with
      | nil => exact absurd hsp (splitSep_ne_nil _ _)
      | cons p ps =>
        rw [hsp] at ih
        cases ps with
        | nil => simpa [joinSep] using ih
        | cons q qs =>
          rw [joinSep] at ih ⊢
          simpa using ih

/-- Pieces produced by `splitSep` do not contain the separator. -/
theorem not_mem_of_mem_splitSep {sep : Char} {l : List Char} {p : List Char}
    (hp : p ∈ splitSep sep l) : sep ∉ p := by
  induction l generalizing p with
  | nil => simp [splitSep] at hp; simp [hp]
  | cons c cs ih =>
    rw [splitSep] at hp
    split at hp
    · rcases List.mem_cons.mp hp with rfl | hmem
      · simp
      · exact ih hmem
    · rename_i hc
      cases hsp : splitSep sep cs with
      | nil => exact absurd hsp (splitSep_ne_nil _ _)
      | cons q qs =>
        rw [hsp] at hp
        rcases List.mem_cons.mp hp with rfl | hmem
        · intro hsep
          rcases List.mem_cons.mp hsep with rfl | hmem2
          · exact hc rfl
          · exact ih (hsp ▸ List.mem_cons_self ..) hmem2
        · exact ih (hsp ▸ List.mem_cons_of_mem _ hmem)

/-- Membership introduction for `joinSep`. -/
theorem mem_joinSep_intro {sep : Char} {parts : List (List Char)}
    {p : List Char} {c : Char} (hp : p ∈ parts) (hc : c ∈ p) :
    c ∈ joinSep sep parts := by
  induction parts with
  | nil => cases hp
  | cons q qs ih =>
    cases qs with
    | nil =>
      rcases List.mem_cons.mp hp with rfl | h
      · exact hc
      · cases h
    | cons r rs =>
      rw [joinSep]
      rcases List.mem_cons.mp hp with rfl | h
      · exact List.mem_append_left _ hc
      · exact List.mem_append_right _ (List.mem_cons_of_mem _ (ih h))

/-- Membership elimination for `joinSep`. -/
theorem mem_joinSep_elim {sep : Char} {parts : List (List Char)} {c : Char}
    (hc : c ∈ joinSep sep parts) : c = sep ∨ ∃ p ∈ parts, c ∈ p := by
  induction parts with
  | nil => cases hc
  | cons q qs ih =>
    cases qs with
    | nil =>
      right
      exact ⟨q, List.mem_cons_self .., hc⟩
    | cons r rs =>
      rw [joinSep] at hc
      rcases List.mem_append.mp hc with h | h
      · exact Or.inr ⟨q, List.mem_cons_self .., h⟩
      · rcases List.mem_cons.mp h with rfl | h2
        · exact Or.inl rfl
        · rcases ih h2 with h3 | ⟨p, hp, hcp⟩
          · exact Or.inl h3
          · exact Or.inr ⟨p, List.mem_cons_of_mem _ hp, hcp⟩

/-- Every piece is an infix of the join. -/
theorem infOf_joinSep_of_mem {sep : Char} {parts : List (List Char)}
    {p : List Char} (hp : p ∈ parts) : p <:+: joinSep sep parts := by
  induction parts with
  | nil => cases hp
  | cons q qs ih =>
    cases qs with
    | nil =>
      rcases List.mem_cons.mp hp with rfl | h
      · exact List.infix_rfl
      · cases h
    | cons r rs =>
      rw [joinSep]
      rcases List.mem_cons.mp hp with rfl | h
      · exact infOfPre ⟨sep :: joinSep sep (r :: rs), rfl⟩
      · exact ((ih h).trans (infOfSuf ⟨[sep], rfl⟩)).trans
          (infOfSuf ⟨q, rfl⟩)

/-- Whitespace-only text splits (by whitespace) into no words: aux form. -/
theorem splitWhiteAux_allSpace {l : List Char} (h : ∀ c ∈ l, isSpace c) :
    splitWhiteAux [] l = [] := by
  induction l with
  | nil => rfl
  | cons c cs ih =>
    have hc : isSpace c := h c (List.mem_cons_self ..)
    simp only [splitWhiteAux, hc, if_true, if_pos rfl]
    exact ih fun d hd => h d (List.mem_cons_of_mem _ hd)

/-- Whitespace-only text (including the empty text) splits into no words. -/
theorem splitWhite_allSpace {l : List Char} (h : ∀ c ∈ l, isSpace c) :
    splitWhite l = [] :=
  splitWhiteAux_allSpace h

end Py

namespace Clean

/-- Dropping the matched `takeWhile` piece leaves the `dropWhile` piece. -/
theorem drop_length_takeWhile (p : Char → Bool) (l : List Char) :
    l.drop (l.takeWhile p).length = l.dropWhile p := by
  induction l with
  | nil => rfl
  | cons c cs ih =>
    by_cases h : p c <;> simp [List.takeWhile_cons, List.dropWhile_cons, h, ih]

/-- `collapseNLRun` in terms of the full whitespace run ahead. -/
theorem collapseNLRun_eq (l runRev : List Char) :
    collapseNLRun runRev l =
      emitRun (runRev.reverse ++ l.takeWhile Py.isSpace) ++
        (match l.dropWhile Py.isSpace with
          | [] => []
          | c :: cs => c :: collapseNL cs) := by
  induction l generalizing runRev with
  | nil => simp [collapseNLRun]
  | cons c cs ih =>
    rw [collapseNLRun]
    by_cases hc : Py.isSpace c = true
    · rw [if_pos hc, ih]
      simp [List.takeWhile_cons, List.dropWhile_cons, hc]
    · rw [if_neg hc]
      simp [List.takeWhile_cons, List.dropWhile_cons, hc]

/-- Run-step unfolding of `collapseNL` at a whitespace head. -/
theorem collapseNL_cons_space {c : Char} {cs : List Char}
    (hc : Py.isSpace c = true) :
    collapseNL (c :: cs) =
      emitRun (c :: cs.takeWhile Py.isSpace) ++
        (match cs.dropWhile Py.isSpace with
          | [] => []
          | x :: xs => x :: collapseNL xs) := by
  rw [collapseNL, if_pos hc, collapseNLRun_eq]
  simp

/-- Unfolding of `collapseNL` at a non-whitespace head. -/
theorem collapseNL_cons_not {c : Char} {cs : List Char}
    (hc : ¬Py.isSpace c = true) :
    collapseNL (c :: cs) = c :: collapseNL cs := by
  rw [collapseNL, if_neg hc]

/-- The head piece of a run up to its first newline has no newline. -/
theorem count_nl_takeWhile_ne (l : List Char) :
    (l.takeWhile (fun c => c ≠ '\n')).count '\n' = 0 := by
  rw [List.count_eq_zero]
  intro hmem
  have := List.mem_takeWhile_imp hmem
  simp at this

/-- The collapsed run has at most two newlines. -/
theorem emitRun_count_le (run : List Char) : (emitRun run).count '\n' ≤ 2 := by
  unfold emitRun
  split
  · rw [List.count_append, count_nl_takeWhile_ne]
    have h2 : List.count '\n'
        ('\n' :: '\n' :: (run.reverse.takeWhile (fun c => c ≠ '\n')).reverse) =
        List.count '\n' ((run.reverse.takeWhile (fun c => c ≠ '\n')).reverse) + 2 := by
      simp [List.count_cons]
    rw [h2, List.count_reverse, count_nl_takeWhile_ne]
  · omega

/-- The collapsed run is still all-whitespace. -/
theorem emitRun_allSpace {run : List Char} (h : ∀ c ∈ run, Py.isSpace c = true) :
    ∀ c ∈ emitRun run, Py.isSpace c = true := by
  intro c hc
  unfold emitRun at hc
  split at hc
  · rcases List.mem_append.mp hc with h1 | h1
    · exact h c ((List.takeWhile_sublist _).subset h1)
    · rcases List.mem_cons.mp h1 with rfl | h2
      · decide
      · rcases List.mem_cons.mp h2 with rfl | h3
        · decide
        · rw [List.mem_reverse] at h3
          have h4 := (List.takeWhile_sublist _).subset h3
          rw [List.mem_reverse] at h4
          exact h c h4
  · exact h c hc

/-- Elements of the collapsed run come from the run or are newlines. -/
theorem mem_emitRun {run : List Char} {c : Char} (hc : c ∈ emitRun run) :
    c ∈ run ∨ c = '\n' := by
  unfold emitRun at hc
  split at hc
  · rcases List.mem_append.mp hc with h1 | h1
    · exact Or.inl ((List.takeWhile_sublist _).subset h1)
    · rcases List.mem_cons.mp h1 with rfl | h2
      · exact Or.inr rfl
      · rcases List.mem_cons.mp h2 with rfl | h3
        · exact Or.inr rfl
        · rw [List.mem_reverse] at h3
          have h4 := (List.takeWhile_sublist _).subset h3
          rw [List.mem_reverse] at h4
          exact Or.inl h4
  · exact Or.inl hc

/-- Elements of `collapseNL` output come from the input or are newlines. -/
theorem mem_collapseNL (l : List Char) : ∀ c ∈ collapseNL l, c ∈ l ∨ c = '\n' := by
  refine collapseNL.induct
    (fun l => ∀ c ∈ collapseNL l, c ∈ l ∨ c = '\n')
    (fun runRev t => ∀ c ∈ collapseNLRun runRev t, c ∈ runRev ∨ c ∈ t ∨ c = '\n')
    ?_ ?_ ?_ ?_ ?_ ?_ l
  · intro c hc; simp [collapseNL] at hc
  · intro c cs hc ih x hx
    rw [collapseNL, if_pos hc] at hx
    rcases ih x hx with h | h | h
    · rcases List.mem_cons.mp h with rfl | h2
      · exact Or.inl (List.mem_cons_self ..)
      · cases h2
    · exact Or.inl (List.mem_cons_of_mem _ h)
    · exact Or.inr h
  · intro c cs hc ih x hx
    rw [collapseNL_cons_not hc] at hx
    rcases List.mem_cons.mp hx with rfl | h
    · exact Or.inl (List.mem_cons_self ..)
    · rcases ih x h with h2 | h2
      · exact Or.inl (List.mem_cons_of_mem _ h2)
      · exact Or.inr h2
  · intro runRev x hx
    rw [collapseNLRun] at hx
    rcases mem_emitRun hx with h | h
    · rw [List.mem_reverse] at h; exact Or.inl h
    · exact Or.inr (Or.inr h)
  · intro runRev c cs hc ih x hx
    rw [collapseNLRun, if_pos hc] at hx
    rcases ih x hx with h | h | h
    · rcases List.mem_cons.mp h with rfl | h2
      · exact Or.inr (Or.inl (List.mem_cons_self ..))
      · exact Or.inl h2
    · exact Or.inr (Or.inl (List.mem_cons_of_mem _ h))
    · exact Or.inr (Or.inr h)
  · intro runRev c cs hc ih x hx
    rw [collapseNLRun, if_neg hc] at hx
    rcases List.mem_append.mp hx with h | h
    · rcases mem_emitRun h with h2 | h2
      · rw [List.mem_reverse] at h2; exact Or.inl h2
      · exact Or.inr (Or.inr h2)
    · rcases List.mem_cons.mp h with rfl | h2
      · exact Or.inr (Or.inl (List.mem_cons_self ..))
      · rcases ih x h2 with h3 | h3
        · exact Or.inr (Or.inl (List.mem_cons_of_mem _ h3))
        · exact Or.inr (Or.inr h3)

/-- Non-whitespace input characters survive `collapseNL`. -/
theorem mem_collapseNL_of (l : List Char) :
    ∀ c ∈ l, ¬Py.isSpace c = true → c ∈ collapseNL l := by
  refine collapseNL.induct
    (fun l => ∀ c ∈ l, ¬Py.isSpace c = true → c ∈ collapseNL l)
    (fun runRev t => ∀ c ∈ t, ¬Py.isSpace c = true → c ∈ collapseNLRun runRev t)
    ?_ ?_ ?_ ?_ ?_ ?_ l
  · intro c hc; cases hc
  · intro c cs hc ih x hx hns
    rw [collapseNL, if_pos hc]
    rcases List.mem_cons.mp hx with rfl | h
    · exact absurd hc hns
    · exact ih x h hns
  · intro c cs hc ih x hx hns
    rw [collapseNL_cons_not hc]
    rcases List.mem_cons.mp hx with rfl | h
    · exact List.mem_cons_self ..
    · exact List.mem_cons_of_mem _ (ih x h hns)
  · intro runRev x hx
    cases hx
  · intro runRev c cs hc ih x hx hns
    rw [collapseNLRun, if_pos hc]
    rcases List.mem_cons.mp hx with rfl | h
    · exact absurd hc hns
    · exact ih x h hns
  · intro runRev c cs hc ih x hx hns
    rw [collapseNLRun, if_neg hc]
    rcases List.mem_cons.mp hx with rfl | h
    · exact List.mem_append_right _ (List.mem_cons_self ..)
    · exact List.mem_append_right _ (List.mem_cons_of_mem _ (ih x h hns))

/-- Elements of `collapseHS` output come from the input or are spaces. -/
theorem mem_collapseHS (l : List Char) : ∀ c ∈ collapseHS l, c ∈ l ∨ c = ' ' := by
  refine collapseHS.induct
    (fun l => ∀ c ∈ collapseHS l, c ∈ l ∨ c = ' ')
    (fun t => ∀ c ∈ collapseHSSkip t, c ∈ t ∨ c = ' ')
    ?_ ?_ ?_ ?_ ?_ ?_ l
  · intro c hc; simp [collapseHS] at hc
  · intro c cs hc ih x hx
    rw [collapseHS, if_pos hc] at hx
    rcases List.mem_cons.mp hx with rfl | h
    · exact Or.inr rfl
    · rcases ih x h with h2 | h2
      · exact Or.inl (List.mem_cons_of_mem _ h2)
      · exact Or.inr h2
  · intro c cs hc ih x hx
    rw [collapseHS, if_neg hc] at hx
    rcases List.mem_cons.mp hx with rfl | h
    · exact Or.inl (List.mem_cons_self ..)
    · rcases ih x h with h2 | h2
      · exact Or.inl (List.mem_cons_of_mem _ h2)
      · exact Or.inr h2
  · intro c hc; simp [collapseHSSkip] at hc
  · intro c cs hc ih x hx
    rw [collapseHSSkip, if_pos hc] at hx
    rcases ih x hx with h2 | h2
    · exact Or.inl (List.mem_cons_of_mem _ h2)
    · exact Or.inr h2
  · intro c cs hc ih x hx
    rw [collapseHSSkip, if_neg hc] at hx
    rcases List.mem_cons.mp hx with rfl | h
    · exact Or.inl (List.mem_cons_self ..)
    · rcases ih x h with h2 | h2
      · exact Or.inl (List.mem_cons_of_mem _ h2)
      · exact Or.inr h2

/-- Non-whitespace input characters survive `collapseHS`. -/
theorem mem_collapseHS_of (l : List Char) :
    ∀ c ∈ l, ¬Py.isSpace c = true → c ∈ collapseHS l := by
  refine collapseHS.induct
    (fun l => ∀ c ∈ l, ¬Py.isSpace c = true → c ∈ collapseHS l)
    (fun t => ∀ c ∈ t, ¬Py.isSpace c = true → c ∈ collapseHSSkip t)
    ?_ ?_ ?_ ?_ ?_ ?_ l
  · intro c hc; cases hc
  · intro c cs hc ih x hx hns
    rw [collapseHS, if_pos hc]
    rcases List.mem_cons.mp hx with rfl | h
    · exfalso; apply hns; revert hc; unfold Py.isHz Py.isSpace; intro hc
      rcases Bool.or_eq_true_iff.mp hc with h1 | h1 <;> simp_all
    · exact List.mem_cons_of_mem _ (ih x h hns)
  · intro c cs hc ih x hx hns
    rw [collapseHS, if_neg hc]
    rcases List.mem_cons.mp hx with rfl | h
    · exact List.mem_cons_self ..
    · exact List.mem_cons_of_mem _ (ih x h hns)
  · intro c hc; cases hc
  · intro c cs hc ih x hx hns
    rw [collapseHSSkip, if_pos hc]
    rcases List.mem_cons.mp hx with rfl | h
    · exfalso; apply hns; revert hc; unfold Py.isHz Py.isSpace; intro hc
      rcases Bool.or_eq_true_iff.mp hc with h1 | h1 <;> simp_all
    · exact ih x h hns
  · intro c cs hc ih x hx hns
    rw [collapseHSSkip, if_neg hc]
    rcases List.mem_cons.mp hx with rfl | h
    · exact List.mem_cons_self ..
    · exact List.mem_cons_of_mem _ (ih x h hns)

/-- Unfolding lemmas for `subWrapped2`. -/
theorem subWrapped2_nil (d : Char) : subWrapped2 d [] = [] := by
  simp [subWrapped2]

theorem subWrapped2_one (d c : Char) : subWrapped2 d [c] = [c] := by
  simp [subWrapped2]

theorem subWrapped2_cons (d c c2 : Char) (cs2 : List Char) :
    subWrapped2 d (c :: c2 :: cs2) =
      if c = d ∧ c2 = d then
        if cs2.takeWhile (fun x => x ≠ d) ≠ [] ∧
            twoDelims d (cs2.drop (cs2.takeWhile (fun x => x ≠ d)).length) then
          cs2.takeWhile (fun x => x ≠ d) ++
            subWrapped2 d ((cs2.drop (cs2.takeWhile (fun x => x ≠ d)).length).drop 2)
        else c :: subWrapped2 d (c2 :: cs2)
      else c :: subWrapped2 d (c2 :: cs2) := by
  rw [subWrapped2.eq_def]

/-- Unfolding lemmas for `subWrapped1`. -/
theorem subWrapped1_nil (d : Char) : subWrapped1 d [] = [] := by
  simp [subWrapped1]

theorem subWrapped1_cons (d c : Char) (cs : List Char) :
    subWrapped1 d (c :: cs) =
      if c = d then
        if cs.takeWhile (fun x => x ≠ d) ≠ [] ∧
            oneDelim d (cs.drop (cs.takeWhile (fun x => x ≠ d)).length) then
          cs.takeWhile (fun x => x ≠ d) ++
            subWrapped1 d ((cs.drop (cs.takeWhile (fun x => x ≠ d)).length).drop 1)
        else c :: subWrapped1 d cs
      else c :: subWrapped1 d cs := by
  rw [subWrapped1.eq_def]

/-- Elements of `subWrapped2` output come from the input. -/
theorem mem_subWrapped2 (d : Char) (l : List Char) :
    ∀ c ∈ subWrapped2 d l, c ∈ l := by
  refine subWrapped2.induct d (fun l => ∀ c ∈ subWrapped2 d l, c ∈ l)
    ?_ ?_ ?_ ?_ ?_ l
  · intro c hc; rw [subWrapped2_nil] at hc; cases hc
  · intro c x hx; rwa [subWrapped2_one] at hx
  · intro c c2 cs2 hd run rest hcond ih x hx
    have hcond2 : cs2.takeWhile (fun y => y ≠ d) ≠ [] ∧
        twoDelims d (cs2.drop (cs2.takeWhile (fun y => y ≠ d)).length) := hcond
    rw [subWrapped2_cons, if_pos hd, if_pos hcond2] at hx
    rcases List.mem_append.mp hx with h | h
    · exact List.mem_cons_of_mem _ (List.mem_cons_of_mem _
        ((List.takeWhile_sublist _).subset h))
    · have h2 : x ∈ cs2 := List.drop_subset _ _ (List.drop_subset _ _ (ih x h))
      exact List.mem_cons_of_mem _ (List.mem_cons_of_mem _ h2)
  · intro c c2 cs2 hd run rest hcond ih x hx
    have hcond2 : ¬(cs2.takeWhile (fun y => y ≠ d) ≠ [] ∧
        twoDelims d (cs2.drop (cs2.takeWhile (fun y => y ≠ d)).length) = true) := hcond
    rw [subWrapped2_cons, if_pos hd, if_neg hcond2] at hx
    rcases List.mem_cons.mp hx with rfl | h
    · exact List.mem_cons_self ..
    · exact List.mem_cons_of_mem _ (ih x h)
  · intro c c2 cs2 hd ih x hx
    rw [subWrapped2_cons, if_neg hd] at hx
    rcases List.mem_cons.mp hx with rfl | h
    · exact List.mem_cons_self ..
    · exact List.mem_cons_of_mem _ (ih x h)

/-- Non-delimiter input characters survive `subWrapped2`. -/
theorem mem_subWrapped2_of (d : Char) (l : List Char) :
    ∀ c ∈ l, c ≠ d → c ∈ subWrapped2 d l := by
  refine subWrapped2.induct d (fun l => ∀ c ∈ l, c ≠ d → c ∈ subWrapped2 d l)
    ?_ ?_ ?_ ?_ ?_ l
  · intro c hc; cases hc
  · intro c x hx hne; rwa [subWrapped2_one]
  · intro c c2 cs2 hd run rest hcond ih x hx hne
    have hcond2 : cs2.takeWhile (fun y => y ≠ d) ≠ [] ∧
        twoDelims d (cs2.drop (cs2.takeWhile (fun y => y ≠ d)).length) := hcond
    rw [subWrapped2_cons, if_pos hd, if_pos hcond2]
    rcases List.mem_cons.mp hx with rfl | hx2
    · exact absurd hd.1 hne
    rcases List.mem_cons.mp hx2 with rfl | hx3
    · exact absurd hd.2 hne
    have hsplit : cs2 = cs2.takeWhile (fun y => y ≠ d) ++
        cs2.drop (cs2.takeWhile (fun y => y ≠ d)).length := by
      rw [drop_length_takeWhile, List.takeWhile_append_dropWhile]
    rw [hsplit] at hx3
    rcases List.mem_append.mp hx3 with h | h
    · exact List.mem_append_left _ h
    · apply List.mem_append_right
      apply ih x _ hne
      show x ∈ List.drop 2 (cs2.drop (cs2.takeWhile (fun y => y ≠ d)).length)
      revert hcond2
      cases hrest : cs2.drop (cs2.takeWhile (fun y => y ≠ d)).length with
      | nil => intro hcond2; exfalso; simp [twoDelims] at hcond2
      | cons r1 rs =>
        cases rs with
        | nil => intro hcond2; exfalso; simp [twoDelims] at hcond2
        | cons r2 rs2 =>
          intro hcond2
          obtain ⟨hr1, hr2⟩ : r1 = d ∧ r2 = d := by
            have := hcond2.2
            simp [twoDelims] at this
            exact this
          rw [hrest] at h
          rcases List.mem_cons.mp h with rfl | h4
          · exact absurd hr1 hne
          rcases List.mem_cons.mp h4 with rfl | h5
          · exact absurd hr2 hne
          · simpa using h5
  · intro c c2 cs2 hd run rest hcond ih x hx hne
    have hcond2 : ¬(cs2.takeWhile (fun y => y ≠ d) ≠ [] ∧
        twoDelims d (cs2.drop (cs2.takeWhile (fun y => y ≠ d)).length) = true) := hcond
    rw [subWrapped2_cons, if_pos hd, if_neg hcond2]
    rcases List.mem_cons.mp hx with rfl | h
    · exact List.mem_cons_self ..
    · exact List.mem_cons_of_mem _ (ih x h hne)
  · intro c c2 cs2 hd ih x hx hne
    rw [subWrapped2_cons, if_neg hd]
    rcases List.mem_cons.mp hx with rfl | h
    · exact List.mem_cons_self ..
    · exact List.mem_cons_of_mem _ (ih x h hne)

/-- Elements of `subWrapped1` output come from the input. -/
theorem mem_subWrapped1 (d : Char) (l : List Char) :
    ∀ c ∈ subWrapped1 d l, c ∈ l := by
  refine subWrapped1.induct d (fun l => ∀ c ∈ subWrapped1 d l, c ∈ l)
    ?_ ?_ ?_ ?_ l
  · intro c hc; rw [subWrapped1_nil] at hc; cases hc
  · intro cs run rest hcond ih x hx
    have hcond2 : cs.takeWhile (fun y => y ≠ d) ≠ [] ∧
        oneDelim d (cs.drop (cs.takeWhile (fun y => y ≠ d)).length) := hcond
    rw [subWrapped1_cons, if_pos rfl, if_pos hcond2] at hx
    rcases List.mem_append.mp hx with h | h
    · exact List.mem_cons_of_mem _ ((List.takeWhile_sublist _).subset h)
    · exact List.mem_cons_of_mem _ (List.drop_subset _ _ (List.drop_subset _ _ (ih x h)))
  · intro cs run rest hcond ih x hx
    have hcond2 : ¬(cs.takeWhile (fun y => y ≠ d) ≠ [] ∧
        oneDelim d (cs.drop (cs.takeWhile (fun y => y ≠ d)).length) = true) := hcond
    rw [subWrapped1_cons, if_pos rfl, if_neg hcond2] at hx
    rcases List.mem_cons.mp hx with rfl | h
    · exact List.mem_cons_self ..
    · exact List.mem_cons_of_mem _ (ih x h)
  · intro c cs hne ih x hx
    rw [subWrapped1_cons, if_neg hne] at hx
    rcases List.mem_cons.mp hx with rfl | h
    · exact List.mem_cons_self ..
    · exact List.mem_cons_of_mem _ (ih x h)

/-- Non-delimiter input characters survive `subWrapped1`. -/
theorem mem_subWrapped1_of (d : Char) (l : List Char) :
    ∀ c ∈ l, c ≠ d → c ∈ subWrapped1 d l := by
  refine subWrapped1.induct d (fun l => ∀ c ∈ l, c ≠ d → c ∈ subWrapped1 d l)
    ?_ ?_ ?_ ?_ l
  · intro c hc; cases hc
  · intro cs run rest hcond ih x hx hne
    have hcond2 : cs.takeWhile (fun y => y ≠ d) ≠ [] ∧
        oneDelim d (cs.drop (cs.takeWhile (fun y => y ≠ d)).length) := hcond
    rw [subWrapped1_cons, if_pos rfl, if_pos hcond2]
    rcases List.mem_cons.mp hx with rfl | hx2
    · exact absurd rfl hne
    have hsplit : cs = cs.takeWhile (fun y => y ≠ d) ++
        cs.drop (cs.takeWhile (fun y => y ≠ d)).length := by
      rw [drop_length_takeWhile, List.takeWhile_append_dropWhile]
    rw [hsplit] at hx2
    rcases List.mem_append.mp hx2 with h | h
    · exact List.mem_append_left _ h
    · apply List.mem_append_right
      apply ih x _ hne
      show x ∈ List.drop 1 (cs.drop (cs.takeWhile (fun y => y ≠ d)).length)
      revert hcond2
      cases hrest : cs.drop (cs.takeWhile (fun y => y ≠ d)).length with
      | nil => intro hcond2; exfalso; simp [oneDelim] at hcond2
      | cons r1 rs =>
        intro hcond2
        have hr1 : r1 = d := by
          have := hcond2.2
          simpa [oneDelim] using this
        rw [hrest] at h
        rcases List.mem_cons.mp h with rfl | h4
        · exact absurd hr1 hne
        · simpa using h4
  · intro cs run rest hcond ih x hx hne
    have hcond2 : ¬(cs.takeWhile (fun y => y ≠ d) ≠ [] ∧
        oneDelim d (cs.drop (cs.takeWhile (fun y => y ≠ d)).length) = true) := hcond
    rw [subWrapped1_cons, if_pos rfl, if_neg hcond2]
    rcases List.mem_cons.mp hx with rfl | h
    · exact absurd rfl hne
    · exact List.mem_cons_of_mem _ (ih x h hne)
  · intro c cs hd ih x hx hne
    rw [subWrapped1_cons, if_neg hd]
    rcases List.mem_cons.mp hx with rfl | h
    · exact List.mem_cons_self ..
    · exact List.mem_cons_of_mem _ (ih x h hne)

/-! ### Newline-run bound

`wsNl t` counts the newlines in the whitespace prefix of `t`; the invariant
`W l` — every suffix of `l` has at most two newlines in its whitespace
prefix — says exactly that no all-whitespace infix of `l` contains three
newlines, hence in particular that `l` has no three consecutive newlines. -/

/-- Newlines in the leading whitespace of `t`. -/
def wsNl (t : List Char) : Nat := (t.takeWhile Py.isSpace).count '\n'

/-- Every whitespace run of `l` (viewed from any suffix) has at most two
newlines. -/
def W (l : List Char) : Prop := ∀ t, t <:+ l → wsNl t ≤ 2

theorem wsNl_cons_of_space {c : Char} {t : List Char} (hc : Py.isSpace c = true) :
    wsNl (c :: t) = (if c = '\n' then 1 else 0) + wsNl t := by
  unfold wsNl
  rw [List.takeWhile_cons_of_pos hc, List.count_cons]
  by_cases h : c = '\n'
  · subst h; simp [Nat.add_comm]
  · have hb : ('\n' == c) = false := beq_eq_false_iff_ne.mpr (Ne.symm h)
    simp [hb, h]

theorem wsNl_cons_of_not {c : Char} {t : List Char} (hc : ¬Py.isSpace c = true) :
    wsNl (c :: t) = 0 := by
  unfold wsNl
  rw [List.takeWhile_cons_of_neg hc]
  rfl

theorem wsNl_nil : wsNl [] = 0 := rfl

/-- Appending on the right can only grow the leading-whitespace newline
count. -/
theorem wsNl_le_append (t z : List Char) : wsNl t ≤ wsNl (t ++ z) := by
  induction t with
  | nil => simp [wsNl_nil]
  | cons c t' ih =>
    by_cases hc : Py.isSpace c = true
    · rw [List.cons_append, wsNl_cons_of_space hc, wsNl_cons_of_space hc]
      omega
    · rw [List.cons_append, wsNl_cons_of_not hc]
      omega

theorem W_nil : W [] := by
  intro t ht
  rw [List.suffix_nil.mp ht]
  simp [wsNl_nil]

/-- `W` is closed under suffixes. -/
theorem W_suffix {l t : List Char} (hW : W l) (ht : t <:+ l) : W t :=
  fun u hu => hW u (hu.trans ht)

/-- `W` is closed under prefixes. -/
theorem W_prefOf {l p : List Char} (hW : W l) (hp : p <+: l) : W p := by
  obtain ⟨w, hw⟩ := hp
  intro t ht
  obtain ⟨u, hu⟩ := ht
  have hsuf : t ++ w <:+ l := ⟨u, by rw [← List.append_assoc, hu, hw]⟩
  exact le_trans (wsNl_le_append t w) (hW _ hsuf)

/-- `W` is closed under infixes. -/
theorem W_infOf {l m : List Char} (hW : W l) (hm : m <:+: l) : W m := by
  obtain ⟨u, v, huv⟩ := hm
  have hsuf : m ++ v <:+ l := ⟨u, by rw [← List.append_assoc, huv]⟩
  exact W_prefOf (W_suffix hW hsuf) ⟨v, rfl⟩

/-- Prepending a non-whitespace character preserves `W`. -/
theorem W_cons_nonspace {c : Char} {l : List Char}
    (hc : ¬Py.isSpace c = true) (hW : W l) : W (c :: l) := by
  intro t ht
  rcases List.suffix_cons_iff.mp ht with rfl | h
  · rw [wsNl_cons_of_not hc]; omega
  · exact hW t h

/-- An all-whitespace list with at most two newlines satisfies `W`. -/
theorem W_of_allSpace_count {A : List Char}
    (hA : ∀ c ∈ A, Py.isSpace c = true) (hc : A.count '\n' ≤ 2) : W A := by
  intro t ht
  have hsub : List.Sublist t A := ht.sublist
  have htws : ∀ c ∈ t, Py.isSpace c = true := fun c hmem => hA c (hsub.subset hmem)
  have : t.takeWhile Py.isSpace = t := List.takeWhile_eq_self_iff.mpr htws
  unfold wsNl
  rw [this]
  exact le_trans (hsub.count_le _) hc

/-- Decompose a suffix of an append. -/
theorem sufOf_append_cases {t A B : List Char} (h : t <:+ A ++ B) :
    t <:+ B ∨ ∃ x, x <:+ A ∧ t = x ++ B := by
  obtain ⟨u, hu⟩ := h
  by_cases hlen : t.length ≤ B.length
  · left
    have h1 : t.reverse <+: (A ++ B).reverse := List.reverse_prefix.mpr ⟨u, hu⟩
    have h2 : B.reverse <+: (A ++ B).reverse := List.reverse_prefix.mpr ⟨A, rfl⟩
    have h3 : t.reverse <+: B.reverse :=
      List.prefix_of_prefix_length_le h1 h2 (by simpa using hlen)
    have := List.reverse_prefix.mp (by simpa using h3)
    simpa using this
  · right
    push_neg at hlen
    have hul : u.length ≤ A.length := by
      have := congrArg List.length hu
      simp [List.length_append] at this
      omega
    have hA : A = u ++ A.drop u.length := by
      have h1 : u = (A ++ B).take u.length := by
        rw [← hu]; simp
      rw [List.take_append_of_le_length hul] at h1
      conv_lhs => rw [← List.take_append_drop u.length A]
      rw [← h1]
    refine ⟨A.drop u.length, ⟨u, hA.symm⟩, ?_⟩
    apply @List.append_cancel_left _ u _ _
    rw [hu]
    conv_lhs => rw [hA]
    rw [List.append_assoc]

/-- `takeWhile` across an all-whitespace left block. -/
theorem takeWhile_append_of_all {x B : List Char}
    (hx : ∀ c ∈ x, Py.isSpace c = true) :
    (x ++ B).takeWhile Py.isSpace = x ++ B.takeWhile Py.isSpace := by
  induction x with
  | nil => simp
  | cons a as ih =>
    rw [List.cons_append,
      List.takeWhile_cons_of_pos (hx a (List.mem_cons_self ..)),
      ih (fun c hmem => hx c (List.mem_cons_of_mem _ hmem))]
    rfl

/-- `W` of an append of an all-whitespace low-newline block and a list
starting with a non-whitespace character (or empty). -/
theorem W_append {A B : List Char}
    (hA : ∀ c ∈ A, Py.isSpace c = true) (hcnt : A.count '\n' ≤ 2)
    (hB : ∀ c cs, B = c :: cs → ¬Py.isSpace c = true) (hWB : W B) :
    W (A ++ B) := by
  intro t ht
  rcases sufOf_append_cases ht with h | ⟨x, hx, rfl⟩
  · exact hWB t h
  · have hxws : ∀ c ∈ x, Py.isSpace c = true :=
      fun c hmem => hA c (hx.sublist.subset hmem)
    have hxt : (x ++ B).takeWhile Py.isSpace = x ++ B.takeWhile Py.isSpace :=
      takeWhile_append_of_all hxws
    have hBt : B.takeWhile Py.isSpace = [] := by
      cases hB2 : B with
      | nil => rfl
      | cons c cs => exact List.takeWhile_cons_of_neg (hB c cs hB2)
    unfold wsNl
    rw [hxt, hBt, List.append_nil]
    exact le_trans (hx.sublist.count_le _) hcnt

/-- The output of `collapseNL` satisfies the newline-run bound. -/
theorem W_collapseNL (l : List Char) : W (collapseNL l) := by
  refine collapseNL.induct
    (fun l => W (collapseNL l))
    (fun runRev t => (∀ c ∈ runRev, Py.isSpace c = true) → W (collapseNLRun runRev t))
    ?_ ?_ ?_ ?_ ?_ ?_ l
  · show W (collapseNL [])
    rw [show collapseNL [] = [] from by simp [collapseNL]]
    exact W_nil
  · intro c cs hc ih
    rw [collapseNL, if_pos hc]
    exact ih (by intro x hx; rcases List.mem_cons.mp hx with rfl | h; exact hc; cases h)
  · intro c cs hc ih
    rw [collapseNL_cons_not hc]
    exact W_cons_nonspace hc ih
  · intro runRev hrun
    rw [collapseNLRun]
    have hws : ∀ c ∈ runRev.reverse, Py.isSpace c = true := by
      intro c hmem; rw [List.mem_reverse] at hmem; exact hrun c hmem
    exact W_of_allSpace_count (emitRun_allSpace hws) (emitRun_count_le _)
  · intro runRev c cs hc ih hrun
    rw [collapseNLRun, if_pos hc]
    refine ih ?_
    intro x hx
    rcases List.mem_cons.mp hx with rfl | h
    · exact hc
    · exact hrun x h
  · intro runRev c cs hc ih hrun
    rw [collapseNLRun, if_neg hc]
    have hws : ∀ x ∈ runRev.reverse, Py.isSpace x = true := by
      intro x hmem; rw [List.mem_reverse] at hmem; exact hrun x hmem
    refine W_append (emitRun_allSpace hws) (emitRun_count_le _) ?_ ?_
    · intro x xs hx
      rw [List.cons.injEq] at hx
      exact hx.1 ▸ hc
    · exact W_cons_nonspace hc ih

/-- Horizontal-whitespace collapsing does not increase the leading
newline count. -/
theorem wsNl_collapseHS_le (l : List Char) :
    wsNl (collapseHS l) ≤ wsNl l ∧ wsNl (collapseHSSkip l) ≤ wsNl l := by
  refine collapseHS.induct
    (fun l => wsNl (collapseHS l) ≤ wsNl l ∧ wsNl (collapseHSSkip l) ≤ wsNl l)
    (fun l => wsNl (collapseHS l) ≤ wsNl l ∧ wsNl (collapseHSSkip l) ≤ wsNl l)
    ?_ ?_ ?_ ?_ ?_ ?_ l
  · constructor <;> simp [collapseHS, collapseHSSkip, wsNl_nil]
  · intro c cs hc ih
    have hsp : Py.isSpace c = true := by
      revert hc; unfold Py.isHz Py.isSpace
      intro hc
      rcases Bool.or_eq_true_iff.mp hc with h1 | h1 <;> simp_all
    have hnnl : ¬ c = '\n' := by
      revert hc; unfold Py.isHz
      intro hc
      rcases Bool.or_eq_true_iff.mp hc with h1 | h1 <;> simp_all
    constructor
    · rw [collapseHS, if_pos hc, wsNl_cons_of_space (by decide),
        wsNl_cons_of_space hsp]
      simp only [if_neg hnnl, show ¬(' ' = '\n') from by decide, if_false]
      omega
    · rw [collapseHSSkip, if_pos hc, wsNl_cons_of_space hsp]
      simp only [if_neg hnnl]
      omega
  · intro c cs hc ih
    by_cases hsp : Py.isSpace c = true
    · constructor
      · rw [collapseHS, if_neg hc, wsNl_cons_of_space hsp, wsNl_cons_of_space hsp]
        omega
      · rw [collapseHSSkip, if_neg hc, wsNl_cons_of_space hsp, wsNl_cons_of_space hsp]
        omega
    · constructor
      · rw [collapseHS, if_neg hc, wsNl_cons_of_not hsp]
        omega
      · rw [collapseHSSkip, if_neg hc, wsNl_cons_of_not hsp]
        omega
  · constructor <;> simp [collapseHS, collapseHSSkip, wsNl_nil]
  · intro c cs hc ih
    have hsp : Py.isSpace c = true := by
      revert hc; unfold Py.isHz Py.isSpace
      intro hc
      rcases Bool.or_eq_true_iff.mp hc with h1 | h1 <;> simp_all
    have hnnl : ¬ c = '\n' := by
      revert hc; unfold Py.isHz
      intro hc
      rcases Bool.or_eq_true_iff.mp hc with h1 | h1 <;> simp_all
    constructor
    · rw [collapseHS, if_pos hc, wsNl_cons_of_space (by decide),
        wsNl_cons_of_space hsp]
      simp only [if_neg hnnl, show ¬(' ' = '\n') from by decide, if_false]
      omega
    · rw [collapseHSSkip, if_pos hc, wsNl_cons_of_space hsp]
      simp only [if_neg hnnl]
      omega
  · intro c cs hc ih
    by_cases hsp : Py.isSpace c = true
    · constructor
      · rw [collapseHS, if_neg hc, wsNl_cons_of_space hsp, wsNl_cons_of_space hsp]
        omega
      · rw [collapseHSSkip, if_neg hc, wsNl_cons_of_space hsp, wsNl_cons_of_space hsp]
        omega
    · constructor
      · rw [collapseHS, if_neg hc, wsNl_cons_of_not hsp]
        omega
      · rw [collapseHSSkip, if_neg hc, wsNl_cons_of_not hsp]
        omega

/-- Horizontal-whitespace collapsing preserves the newline-run bound. -/
theorem W_collapseHS {l : List Char} (hW : W l) : W (collapseHS l) := by
  suffices h : ∀ l, (W l → W (collapseHS l)) ∧ (W l → W (collapseHSSkip l)) from
    (h l).1 hW
  intro l
  refine collapseHS.induct
    (fun l => (W l → W (collapseHS l)) ∧ (W l → W (collapseHSSkip l)))
    (fun l => (W l → W (collapseHS l)) ∧ (W l → W (collapseHSSkip l)))
    ?_ ?_ ?_ ?_ ?_ ?_ l
  · refine ⟨fun _ => ?_, fun _ => ?_⟩
    · rw [show collapseHS [] = ([] : List Char) from by simp [collapseHS]]
      exact W_nil
    · rw [show collapseHSSkip [] = ([] : List Char) from by simp [collapseHSSkip]]
      exact W_nil
  · intro c cs hc ih
    have hsp : Py.isSpace c = true := by
      revert hc; unfold Py.isHz Py.isSpace
      intro hc
      rcases Bool.or_eq_true_iff.mp hc with h1 | h1 <;> simp_all
    have hnnl : ¬ c = '\n' := by
      revert hc; unfold Py.isHz
      intro hc
      rcases Bool.or_eq_true_iff.mp hc with h1 | h1 <;> simp_all
    constructor <;> intro hWl
    · rw [collapseHS, if_pos hc]
      intro t ht
      rcases List.suffix_cons_iff.mp ht with rfl | h
      · rw [wsNl_cons_of_space (by decide)]
        simp only [show ¬(' ' = '\n') from by decide, if_false]
        have h1 : wsNl (collapseHSSkip cs) ≤ wsNl cs := (wsNl_collapseHS_le cs).2
        have h2 : wsNl (c :: cs) ≤ 2 := hWl _ (List.suffix_refl _)
        rw [wsNl_cons_of_space hsp] at h2
        simp only [if_neg hnnl] at h2
        omega
      · exact (ih.2 (W_suffix hWl ⟨[c], rfl⟩)) t h
    · rw [collapseHSSkip, if_pos hc]
      exact ih.2 (W_suffix hWl ⟨[c], rfl⟩)
  · intro c cs hc ih
    constructor <;> intro hWl
    · rw [collapseHS, if_neg hc]
      intro t ht
      rcases List.suffix_cons_iff.mp ht with rfl | h
      · by_cases hsp : Py.isSpace c = true
        · rw [wsNl_cons_of_space hsp]
          have h1 : wsNl (collapseHS cs) ≤ wsNl cs := (wsNl_collapseHS_le cs).1
          have h2 : wsNl (c :: cs) ≤ 2 := hWl _ (List.suffix_refl _)
          rw [wsNl_cons_of_space hsp] at h2
          omega
        · rw [wsNl_cons_of_not hsp]; omega
      · exact (ih.1 (W_suffix hWl ⟨[c], rfl⟩)) t h
    · rw [collapseHSSkip, if_neg hc]
      intro t ht
      rcases List.suffix_cons_iff.mp ht with rfl | h
      · by_cases hsp : Py.isSpace c = true
        · rw [wsNl_cons_of_space hsp]
          have h1 : wsNl (collapseHS cs) ≤ wsNl cs := (wsNl_collapseHS_le cs).1
          have h2 : wsNl (c :: cs) ≤ 2 := hWl _ (List.suffix_refl _)
          rw [wsNl_cons_of_space hsp] at h2
          omega
        · rw [wsNl_cons_of_not hsp]; omega
      · exact (ih.1 (W_suffix hWl ⟨[c], rfl⟩)) t h
  · refine ⟨fun _ => ?_, fun _ => ?_⟩
    · rw [show collapseHS [] = ([] : List Char) from by simp [collapseHS]]
      exact W_nil
    · rw [show collapseHSSkip [] = ([] : List Char) from by simp [collapseHSSkip]]
      exact W_nil
  · intro c cs hc ih
    have hsp : Py.isSpace c = true := by
      revert hc; unfold Py.isHz Py.isSpace
      intro hc
      rcases Bool.or_eq_true_iff.mp hc with h1 | h1 <;> simp_all
    have hnnl : ¬ c = '\n' := by
      revert hc; unfold Py.isHz
      intro hc
      rcases Bool.or_eq_true_iff.mp hc with h1 | h1 <;> simp_all
    constructor <;> intro hWl
    · rw [collapseHS, if_pos hc]
      intro t ht
      rcases List.suffix_cons_iff.mp ht with rfl | h
      · rw [wsNl_cons_of_space (by decide)]
        simp only [show ¬(' ' = '\n') from by decide, if_false]
        have h1 : wsNl (collapseHSSkip cs) ≤ wsNl cs := (wsNl_collapseHS_le cs).2
        have h2 : wsNl (c :: cs) ≤ 2 := hWl _ (List.suffix_refl _)
        rw [wsNl_cons_of_space hsp] at h2
        simp only [if_neg hnnl] at h2
        omega
      · exact (ih.2 (W_suffix hWl ⟨[c], rfl⟩)) t h
    · rw [collapseHSSkip, if_pos hc]
      exact ih.2 (W_suffix hWl ⟨[c], rfl⟩)
  · intro c cs hc ih
    constructor <;> intro hWl
    · rw [collapseHS, if_neg hc]
      intro t ht
      rcases List.suffix_cons_iff.mp ht with rfl | h
      · by_cases hsp : Py.isSpace c = true
        · rw [wsNl_cons_of_space hsp]
          have h1 : wsNl (collapseHS cs) ≤ wsNl cs := (wsNl_collapseHS_le cs).1
          have h2 : wsNl (c :: cs) ≤ 2 := hWl _ (List.suffix_refl _)
          rw [wsNl_cons_of_space hsp] at h2
          omega
        · rw [wsNl_cons_of_not hsp]; omega
      · exact (ih.1 (W_suffix hWl ⟨[c], rfl⟩)) t h
    · rw [collapseHSSkip, if_neg hc]
      intro t ht
      rcases List.suffix_cons_iff.mp ht with rfl | h
      · by_cases hsp : Py.isSpace c = true
        · rw [wsNl_cons_of_space hsp]
          have h1 : wsNl (collapseHS cs) ≤ wsNl cs := (wsNl_collapseHS_le cs).1
          have h2 : wsNl (c :: cs) ≤ 2 := hWl _ (List.suffix_refl _)
          rw [wsNl_cons_of_space hsp] at h2
          omega
        · rw [wsNl_cons_of_not hsp]; omega
      · exact (ih.1 (W_suffix hWl ⟨[c], rfl⟩)) t h

/-! ### `W` under whitespace-only deletion, and the line-stripping step -/

/-- Deleting only non-newline whitespace cannot increase the leading
newline count. -/
theorem wsNl_mono_sublist {y x : List Char} (hsub : List.Sublist y x) :
    x.count '\n' = y.count '\n' →
    x.countP (fun c => !Py.isSpace c) = y.countP (fun c => !Py.isSpace c) →
    wsNl y ≤ wsNl x := by
  induction hsub with
  | slnil => intro _ _; exact le_refl _
  | @cons y' x' a h ih =>
    intro hnl hnw
    have hcle : y'.count '\n' ≤ x'.count '\n' := h.count_le _
    have hple : y'.countP (fun c => !Py.isSpace c) ≤
        x'.countP (fun c => !Py.isSpace c) := h.countP_le _
    have hxc : (a :: x').count '\n' = x'.count '\n' + if a = '\n' then 1 else 0 := by
      by_cases hh : a = '\n'
      · subst hh; simp [List.count_cons]
      · simp [List.count_cons, hh, beq_eq_false_iff_ne.mpr (fun h2 => hh h2.symm)]
    have hxp : (a :: x').countP (fun c => !Py.isSpace c) =
        x'.countP (fun c => !Py.isSpace c) + if Py.isSpace a = true then 0 else 1 := by
      by_cases hh : Py.isSpace a = true <;> simp [List.countP_cons, hh]
    have hannl : ¬(a = '\n') := by
      intro hh
      rw [hxc, if_pos hh] at hnl
      omega
    have haws : Py.isSpace a = true := by
      by_contra hh
      rw [hxp, if_neg hh] at hnw
      omega
    have hnl' : x'.count '\n' = y'.count '\n' := by
      rw [hxc, if_neg hannl] at hnl; omega
    have hnw' : x'.countP (fun c => !Py.isSpace c) =
        y'.countP (fun c => !Py.isSpace c) := by
      rw [hxp, if_pos haws] at hnw; omega
    have hle := ih hnl' hnw'
    rw [wsNl_cons_of_space haws, if_neg hannl]
    omega
  | @cons₂ y' x' a h ih =>
    intro hnl hnw
    have hnl' : x'.count '\n' = y'.count '\n' := by
      rw [List.count_cons, List.count_cons] at hnl; omega
    have hnw' : x'.countP (fun c => !Py.isSpace c) =
        y'.countP (fun c => !Py.isSpace c) := by
      rw [List.countP_cons, List.countP_cons] at hnw; omega
    by_cases hws : Py.isSpace a = true
    · rw [wsNl_cons_of_space hws, wsNl_cons_of_space hws]
      have := ih hnl' hnw'
      omega
    · rw [wsNl_cons_of_not hws, wsNl_cons_of_not hws]

/-- `W` is preserved when deleting only non-newline whitespace. -/
theorem W_sublist {y x : List Char} (hsub : List.Sublist y x) :
    x.count '\n' = y.count '\n' →
    x.countP (fun c => !Py.isSpace c) = y.countP (fun c => !Py.isSpace c) →
    W x → W y := by
  induction hsub with
  | slnil => intro _ _ hW; exact hW
  | @cons y' x' a h ih =>
    intro hnl hnw hW
    have hcle : y'.count '\n' ≤ x'.count '\n' := h.count_le _
    have hple : y'.countP (fun c => !Py.isSpace c) ≤
        x'.countP (fun c => !Py.isSpace c) := h.countP_le _
    have hxc : (a :: x').count '\n' = x'.count '\n' + if a = '\n' then 1 else 0 := by
      by_cases hh : a = '\n'
      · subst hh; simp [List.count_cons]
      · simp [List.count_cons, hh, beq_eq_false_iff_ne.mpr (fun h2 => hh h2.symm)]
    have hxp : (a :: x').countP (fun c => !Py.isSpace c) =
        x'.countP (fun c => !Py.isSpace c) + if Py.isSpace a = true then 0 else 1 := by
      by_cases hh : Py.isSpace a = true <;> simp [List.countP_cons, hh]
    have hannl : ¬(a = '\n') := by
      intro hh
      rw [hxc, if_pos hh] at hnl
      omega
    have haws : Py.isSpace a = true := by
      by_contra hh
      rw [hxp, if_neg hh] at hnw
      omega
    have hnl' : x'.count '\n' = y'.count '\n' := by
      rw [hxc, if_neg hannl] at hnl; omega
    have hnw' : x'.countP (fun c => !Py.isSpace c) =
        y'.countP (fun c => !Py.isSpace c) := by
      rw [hxp, if_pos haws] at hnw; omega
    exact ih hnl' hnw' (W_suffix hW ⟨[a], rfl⟩)
  | @cons₂ y' x' a h ih =>
    intro hnl hnw hW
    have hnl' : x'.count '\n' = y'.count '\n' := by
      rw [List.count_cons, List.count_cons] at hnl; omega
    have hnw' : x'.countP (fun c => !Py.isSpace c) =
        y'.countP (fun c => !Py.isSpace c) := by
      rw [List.countP_cons, List.countP_cons] at hnw; omega
    have hWx' : W x' := W_suffix hW ⟨[a], rfl⟩
    intro t ht
    rcases List.suffix_cons_iff.mp ht with rfl | hsuf
    · by_cases hws : Py.isSpace a = true
      · rw [wsNl_cons_of_space hws]
        have h1 : wsNl y' ≤ wsNl x' := wsNl_mono_sublist h hnl' hnw'
        have h2 := hW _ (List.suffix_refl (a :: x'))
        rw [wsNl_cons_of_space hws] at h2
        omega
      · rw [wsNl_cons_of_not hws]; omega
    · exact ih hnl' hnw' hWx' t hsuf

/-- Pointwise sublists join to a sublist. -/
theorem joinSep_sublist (sep : Char) (f : List Char → List Char)
    (parts : List (List Char)) (hf : ∀ p ∈ parts, List.Sublist (f p) p) :
    List.Sublist (Py.joinSep sep (parts.map f)) (Py.joinSep sep parts) := by
  induction parts with
  | nil => simp [Py.joinSep]
  | cons p ps ih =>
    cases ps with
    | nil =>
      simpa [Py.joinSep] using hf p (List.mem_cons_self ..)
    | cons q qs =>
      rw [List.map_cons, List.map_cons, Py.joinSep, Py.joinSep]
      refine (hf p (List.mem_cons_self ..)).append (List.Sublist.cons₂ _ ?_)
      exact ih fun r hr => hf r (List.mem_cons_of_mem _ hr)

/-- Pointwise equal counts join to an equal count. -/
theorem count_joinSep_eq (ch sep : Char) (f : List Char → List Char)
    (parts : List (List Char)) (hf : ∀ p ∈ parts, (f p).count ch = p.count ch) :
    (Py.joinSep sep (parts.map f)).count ch = (Py.joinSep sep parts).count ch := by
  induction parts with
  | nil => simp [Py.joinSep]
  | cons p ps ih =>
    cases ps with
    | nil =>
      simpa [Py.joinSep] using hf p (List.mem_cons_self ..)
    | cons q qs =>
      rw [List.map_cons, List.map_cons, Py.joinSep, Py.joinSep, List.count_append,
        List.count_append, hf p (List.mem_cons_self ..), List.count_cons, List.count_cons,
        ← List.map_cons, ih fun r hr => hf r (List.mem_cons_of_mem _ hr)]

/-- Pointwise equal `countP`s join to an equal `countP`. -/
theorem countP_joinSep_eq (pr : Char → Bool) (sep : Char) (f : List Char → List Char)
    (parts : List (List Char)) (hf : ∀ p ∈ parts, (f p).countP pr = p.countP pr) :
    (Py.joinSep sep (parts.map f)).countP pr = (Py.joinSep sep parts).countP pr := by
  induction parts with
  | nil => simp [Py.joinSep]
  | cons p ps ih =>
    cases ps with
    | nil =>
      simpa [Py.joinSep] using hf p (List.mem_cons_self ..)
    | cons q qs =>
      rw [List.map_cons, List.map_cons, Py.joinSep, Py.joinSep, List.countP_append,
        List.countP_append, hf p (List.mem_cons_self ..), List.countP_cons, List.countP_cons,
        ← List.map_cons, ih fun r hr => hf r (List.mem_cons_of_mem _ hr)]

/-- Stripping only removes whitespace: the non-whitespace `countP` is kept. -/
theorem countP_nonspace_dropWhile (l : List Char) :
    (l.dropWhile Py.isSpace).countP (fun c => !Py.isSpace c) =
      l.countP (fun c => !Py.isSpace c) := by
  induction l with
  | nil => rfl
  | cons c cs ih =>
    by_cases h : Py.isSpace c = true
    · rw [List.dropWhile_cons_of_pos h, ih, List.countP_cons]
      simp [h]
    · rw [List.dropWhile_cons_of_neg h]

theorem countP_nonspace_strip (l : List Char) :
    (Py.strip l).countP (fun c => !Py.isSpace c) =
      l.countP (fun c => !Py.isSpace c) := by
  unfold Py.strip
  rw [List.countP_reverse, countP_nonspace_dropWhile, List.countP_reverse,
    countP_nonspace_dropWhile]

/-- Stripping a line of a `splitSep '\n'` decomposition keeps newline count
(both sides are zero). -/
theorem count_nl_strip_of_no_nl {p : List Char} (hp : '\n' ∉ p) :
    (Py.strip p).count '\n' = p.count '\n' := by
  rw [List.count_eq_zero.mpr hp, List.count_eq_zero.mpr
    (fun hmem => hp ((Py.strip_sublist p).subset hmem))]

/-- Line stripping (lines 207–208) preserves the newline-run bound. -/
theorem W_stripLines {l : List Char} (hW : W l) : W (stripLines l) := by
  unfold stripLines
  have hx : Py.joinSep '\n' (Py.splitSep '\n' l) = l := Py.joinSep_splitSep '\n' l
  have hsub : List.Sublist (Py.joinSep '\n' ((Py.splitSep '\n' l).map Py.strip))
      (Py.joinSep '\n' (Py.splitSep '\n' l)) :=
    joinSep_sublist _ _ _ (fun p _ => Py.strip_sublist p)
  have hnl : (Py.joinSep '\n' ((Py.splitSep '\n' l).map Py.strip)).count '\n' =
      (Py.joinSep '\n' (Py.splitSep '\n' l)).count '\n' :=
    count_joinSep_eq _ _ _ _
      (fun p hp => count_nl_strip_of_no_nl (Py.not_mem_of_mem_splitSep hp))
  have hnw : (Py.joinSep '\n' ((Py.splitSep '\n' l).map Py.strip)).countP
        (fun c => !Py.isSpace c) =
      (Py.joinSep '\n' (Py.splitSep '\n' l)).countP (fun c => !Py.isSpace c) :=
    countP_joinSep_eq _ _ _ _ (fun p _ => countP_nonspace_strip p)
  refine W_sublist hsub ?_ ?_ ?_
  · rw [hnl]
  · rw [hnw]
  · rw [hx]; exact hW

/-- The cleaned response satisfies the newline-run bound. -/
theorem W_cleanAiResponse (text : List Char) : W (cleanAiResponse text) := by
  unfold cleanAiResponse
  exact W_infOf (W_stripLines (W_collapseHS (W_collapseNL _))) (Py.strip_infOf _)

/-- `W` rules out three consecutive newlines. -/
theorem no_three_nl_of_W {l : List Char} (hW : W l) :
    ¬(['\n', '\n', '\n'] <:+: l) := by
  intro hinf
  obtain ⟨u, v, huv⟩ := hinf
  have hsuf : '\n' :: '\n' :: '\n' :: v <:+ l := ⟨u, by simpa using huv⟩
  have := hW _ hsuf
  rw [wsNl_cons_of_space (by decide), wsNl_cons_of_space (by decide),
    wsNl_cons_of_space (by decide)] at this
  simp at this
  omega

/-! ### Character-level facts about the cleaning pipeline -/

/-- Infix of a cons is a prefix or an infix of the tail. -/
theorem infOf_cons_cases {α : Type} [DecidableEq α] {u : List α} {c : α}
    {t : List α} (h : u <:+: c :: t) : u <+: c :: t ∨ u <:+: t := by
  obtain ⟨pre, post, hpre⟩ := h
  cases pre with
  | nil => exact Or.inl ⟨post, by simpa using hpre⟩
  | cons a as =>
    right
    rw [List.cons_append] at hpre
    injection hpre with h1 h2
    exact ⟨as, post, h2⟩

/-- Elements of `stripLines` output come from the input or are newlines. -/
theorem mem_stripLines {l : List Char} {c : Char} (hc : c ∈ stripLines l) :
    c ∈ l ∨ c = '\n' := by
  unfold stripLines at hc
  rcases Py.mem_joinSep_elim hc with h | ⟨p, hp, hcp⟩
  · exact Or.inr h
  · rcases List.mem_map.mp hp with ⟨q, hq, rfl⟩
    have h2 : c ∈ q := (Py.strip_sublist q).subset hcp
    left
    have h3 : c ∈ Py.joinSep '\n' (Py.splitSep '\n' l) :=
      Py.mem_joinSep_intro hq h2
    rwa [Py.joinSep_splitSep] at h3

/-- Non-whitespace input characters survive `stripLines`. -/
theorem mem_stripLines_of {l : List Char} {c : Char} (hc : c ∈ l)
    (hns : ¬Py.isSpace c = true) : c ∈ stripLines l := by
  unfold stripLines
  have h0 : c ∈ Py.joinSep '\n' (Py.splitSep '\n' l) := by
    rwa [Py.joinSep_splitSep]
  rcases Py.mem_joinSep_elim h0 with h | ⟨p, hp, hcp⟩
  · subst h; exact absurd (by decide) hns
  · exact Py.mem_joinSep_intro (List.mem_map_of_mem Py.strip hp)
      (Py.mem_strip hcp hns)

/-- No asterisk survives the response cleaning. -/
theorem star_not_mem_clean (text : List Char) : '*' ∉ cleanAiResponse text := by
  unfold cleanAiResponse
  intro hmem
  have h7 := (Py.strip_sublist _).subset hmem
  rcases mem_stripLines h7 with h6 | h6
  swap
  · cases h6
  rcases mem_collapseHS _ _ h6 with h5 | h5
  swap
  · cases h5
  rcases mem_collapseNL _ _ h5 with h4 | h4
  swap
  · cases h4
  have h3 := mem_subWrapped1 _ _ _ h4
  have h2 := mem_subWrapped2 _ _ _ h3
  have h1 := mem_subWrapped2 _ _ _ h2
  rcases List.mem_filter.mp h1 with ⟨_, hfalse⟩
  simp at hfalse

/-- No tab leaves `collapseHS`. -/
theorem tab_not_mem_collapseHS (l : List Char) :
    '\t' ∉ collapseHS l ∧ '\t' ∉ collapseHSSkip l := by
  refine collapseHS.induct
    (fun l => '\t' ∉ collapseHS l ∧ '\t' ∉ collapseHSSkip l)
    (fun l => '\t' ∉ collapseHS l ∧ '\t' ∉ collapseHSSkip l)
    ?_ ?_ ?_ ?_ ?_ ?_ l
  · constructor <;> simp [collapseHS, collapseHSSkip]
  · intro c cs hc ih
    constructor
    · rw [collapseHS, if_pos hc]
      intro hmem
      rcases List.mem_cons.mp hmem with h | h
      · cases h
      · exact ih.2 h
    · rw [collapseHSSkip, if_pos hc]
      exact ih.2
  · intro c cs hc ih
    have hct : c ≠ '\t' := by
      intro h; subst h; exact hc (by decide)
    constructor
    · rw [collapseHS, if_neg hc]
      intro hmem
      rcases List.mem_cons.mp hmem with h | h
      · exact hct h.symm
      · exact ih.1 h
    · rw [collapseHSSkip, if_neg hc]
      intro hmem
      rcases List.mem_cons.mp hmem with h | h
      · exact hct h.symm
      · exact ih.1 h
  · constructor <;> simp [collapseHS, collapseHSSkip]
  · intro c cs hc ih
    constructor
    · rw [collapseHS, if_pos hc]
      intro hmem
      rcases List.mem_cons.mp hmem with h | h
      · cases h
      · exact ih.2 h
    · rw [collapseHSSkip, if_pos hc]
      exact ih.2
  · intro c cs hc ih
    have hct : c ≠ '\t' := by
      intro h; subst h; exact hc (by decide)
    constructor
    · rw [collapseHS, if_neg hc]
      intro hmem
      rcases List.mem_cons.mp hmem with h | h
      · exact hct h.symm
      · exact ih.1 h
    · rw [collapseHSSkip, if_neg hc]
      intro hmem
      rcases List.mem_cons.mp hmem with h | h
      · exact hct h.symm
      · exact ih.1 h

/-- No tab survives the response cleaning. -/
theorem tab_not_mem_clean (text : List Char) : '\t' ∉ cleanAiResponse text := by
  unfold cleanAiResponse
  intro hmem
  have h7 := (Py.strip_sublist _).subset hmem
  rcases mem_stripLines h7 with h6 | h6
  · exact (tab_not_mem_collapseHS _).1 h6
  · cases h6

/-- Good characters (non-whitespace, not an asterisk or underscore) survive
the whole cleaning pipeline. -/
theorem mem_clean_of_good {text : List Char} {c : Char} (hc : c ∈ text)
    (hns : ¬Py.isSpace c = true) (hstar : c ≠ '*') (hund : c ≠ '_') :
    c ∈ cleanAiResponse text := by
  unfold cleanAiResponse
  have h1 : c ∈ removeStars text := List.mem_filter.mpr ⟨hc, by simp [hstar]⟩
  have h2 := mem_subWrapped2_of '_' _ c h1 hund
  have h3 := mem_subWrapped2_of '*' _ c h2 hstar
  have h4 := mem_subWrapped1_of '*' _ c h3 hstar
  have h5 := mem_collapseNL_of _ c h4 hns
  have h6 := mem_collapseHS_of _ c h5 hns
  have h7 := mem_stripLines_of h6 hns
  exact Py.mem_strip h7 hns

/-! ### No double space in the cleaned output -/

/-- The skip helper returns nothing or a non-horizontal head. -/
theorem collapseHSSkip_head (l : List Char) :
    collapseHSSkip l = [] ∨
      ∃ c cs, collapseHSSkip l = c :: collapseHS cs ∧ ¬Py.isHz c = true := by
  induction l with
  | nil => left; simp [collapseHSSkip]
  | cons c cs ih =>
    by_cases hc : Py.isHz c = true
    · rw [collapseHSSkip, if_pos hc]
      exact ih
    · right
      exact ⟨c, cs, by rw [collapseHSSkip, if_neg hc], hc⟩

/-- `collapseHS` never produces two adjacent spaces. -/
theorem noTwo_collapseHS (l : List Char) :
    ¬([' ', ' '] <:+: collapseHS l) ∧ ¬([' ', ' '] <:+: collapseHSSkip l) := by
  refine collapseHS.induct
    (fun l => ¬([' ', ' '] <:+: collapseHS l) ∧ ¬([' ', ' '] <:+: collapseHSSkip l))
    (fun l => ¬([' ', ' '] <:+: collapseHS l) ∧ ¬([' ', ' '] <:+: collapseHSSkip l))
    ?_ ?_ ?_ ?_ ?_ ?_ l
  case refine_1 =>
    constructor <;>
      simp [collapseHS, collapseHSSkip, List.infix_nil]
  case refine_4 =>
    constructor <;>
      simp [collapseHS, collapseHSSkip, List.infix_nil]
  case refine_2 =>
    intro c cs hc ih
    constructor
    · rw [collapseHS, if_pos hc]
      intro h
      rcases infOf_cons_cases h with h2 | h2
      · obtain ⟨w, hw⟩ := h2
        rw [List.cons_append, List.cons_append, List.nil_append] at hw
        injection hw with _ hw2
        rcases collapseHSSkip_head cs with h3 | ⟨c', cs', h3, hnhz⟩
        · rw [h3] at hw2; cases hw2
        · rw [h3] at hw2
          injection hw2 with hw3 _
          exact hnhz (hw3 ▸ (by decide : Py.isHz ' ' = true))
      · exact ih.2 h2
    · rw [collapseHSSkip, if_pos hc]
      exact ih.2
  case refine_5 =>
    intro c cs hc ih
    constructor
    · rw [collapseHS, if_pos hc]
      intro h
      rcases infOf_cons_cases h with h2 | h2
      · obtain ⟨w, hw⟩ := h2
        rw [List.cons_append, List.cons_append, List.nil_append] at hw
        injection hw with _ hw2
        rcases collapseHSSkip_head cs with h3 | ⟨c', cs', h3, hnhz⟩
        · rw [h3] at hw2; cases hw2
        · rw [h3] at hw2
          injection hw2 with hw3 _
          exact hnhz (hw3 ▸ (by decide : Py.isHz ' ' = true))
      · exact ih.2 h2
    · rw [collapseHSSkip, if_pos hc]
      exact ih.2
  case refine_3 =>
    intro c cs hc ih
    have hcsp : c ≠ ' ' := by
      intro hh; subst hh; exact hc (by decide)
    constructor
    · rw [collapseHS, if_neg hc]
      intro h
      rcases infOf_cons_cases h with h2 | h2
      · obtain ⟨w, hw⟩ := h2
        rw [List.cons_append, List.cons_append, List.nil_append] at hw
        injection hw with hw1 _
        exact hcsp hw1.symm
      · exact ih.1 h2
    · rw [collapseHSSkip, if_neg hc]
      intro h
      rcases infOf_cons_cases h with h2 | h2
      · obtain ⟨w, hw⟩ := h2
        rw [List.cons_append, List.cons_append, List.nil_append] at hw
        injection hw with hw1 _
        exact hcsp hw1.symm
      · exact ih.1 h2
  case refine_6 =>
    intro c cs hc ih
    have hcsp : c ≠ ' ' := by
      intro hh; subst hh; exact hc (by decide)
    constructor
    · rw [collapseHS, if_neg hc]
      intro h
      rcases infOf_cons_cases h with h2 | h2
      · obtain ⟨w, hw⟩ := h2
        rw [List.cons_append, List.cons_append, List.nil_append] at hw
        injection hw with hw1 _
        exact hcsp hw1.symm
      · exact ih.1 h2
    · rw [collapseHSSkip, if_neg hc]
      intro h
      rcases infOf_cons_cases h with h2 | h2
      · obtain ⟨w, hw⟩ := h2
        rw [List.cons_append, List.cons_append, List.nil_append] at hw
        injection hw with hw1 _
        exact hcsp hw1.symm
      · exact ih.1 h2

/-- An infix of `A ++ sep :: B` avoiding `sep` lies in `A` or in `B`. -/
theorem infOf_append_sep {α : Type} [DecidableEq α] {u A B : List α} {sep : α}
    (h : u <:+: A ++ sep :: B) (hsep : sep ∉ u) : u <:+: A ∨ u <:+: B := by
  induction A with
  | nil =>
    rcases infOf_cons_cases (by simpa using h) with h2 | h2
    · obtain ⟨w, hw⟩ := h2
      cases u with
      | nil => exact Or.inl List.nil_infix
      | cons x xs =>
        rw [List.cons_append] at hw
        injection hw with hw1 _
        exact absurd (hw1 ▸ List.mem_cons_self ..) hsep
    · exact Or.inr h2
  | cons a A' ih =>
    rw [List.cons_append] at h
    rcases infOf_cons_cases h with h2 | h2
    · obtain ⟨w, hw⟩ := h2
      cases u with
      | nil => exact Or.inl List.nil_infix
      | cons x xs =>
        rw [List.cons_append] at hw
        injection hw with hw1 hw2
        subst hw1
        by_cases hlen : xs.length ≤ A'.length
        · left
          have hxs : xs <+: A' ++ sep :: B := ⟨w, hw2⟩
          have hA' : A' <+: A' ++ sep :: B := ⟨sep :: B, rfl⟩
          obtain ⟨t, ht⟩ := List.prefix_of_prefix_length_le hxs hA' hlen
          exact infOfPre ⟨t, by rw [List.cons_append, ht]⟩
        · exfalso
          apply hsep
          have hxs : xs <+: A' ++ sep :: B := ⟨w, hw2⟩
          have heq : xs = (A' ++ sep :: B).take xs.length :=
            List.prefix_iff_eq_take.mp hxs
          have hsepmem : sep ∈ (A' ++ sep :: B).take xs.length := by
            rw [List.take_append_eq_append_take,
              List.take_of_length_le (by omega)]
            have h3 : xs.length - A'.length = (xs.length - A'.length - 1) + 1 := by
              omega
            rw [h3, List.take_succ_cons]
            exact List.mem_append_right _ (List.mem_cons_self ..)
          rw [← heq] at hsepmem
          exact List.mem_cons_of_mem _ hsepmem
    · rcases ih h2 with h3 | h3
      · exact Or.inl (h3.trans (infOfSuf ⟨[a], rfl⟩))
      · exact Or.inr h3

/-- An infix of a join avoiding the separator lies inside one piece. -/
theorem infOf_joinSep_cases {u : List Char} {sep : Char}
    {parts : List (List Char)} (hne : parts ≠ [])
    (h : u <:+: Py.joinSep sep parts) (hsep : sep ∉ u) :
    ∃ p ∈ parts, u <:+: p := by
  induction parts with
  | nil => exact absurd rfl hne
  | cons p ps ih =>
    cases ps with
    | nil =>
      rw [Py.joinSep] at h
      exact ⟨p, List.mem_cons_self .., h⟩
    | cons q qs =>
      rw [Py.joinSep] at h
      rcases infOf_append_sep h hsep with h2 | h2
      · exact ⟨p, List.mem_cons_self .., h2⟩
      · rcases ih (by simp) h2 with ⟨r, hr, hur⟩
        exact ⟨r, List.mem_cons_of_mem _ hr, hur⟩

/-- Each piece of `splitSep` is an infix of the original string. -/
theorem part_infOf {sep : Char} {l p : List Char}
    (hp : p ∈ Py.splitSep sep l) : p <:+: l := by
  have h : p <:+: Py.joinSep sep (Py.splitSep sep l) :=
    Py.infOf_joinSep_of_mem hp
  rwa [Py.joinSep_splitSep] at h

/-- A newline-free infix of `stripLines l` is an infix of `l`. -/
theorem infOf_stripLines {u l : List Char} (hnl : '\n' ∉ u)
    (h : u <:+: stripLines l) : u <:+: l := by
  unfold stripLines at h
  have hne : (Py.splitSep '\n' l).map Py.strip ≠ [] := by
    intro hh
    exact Py.splitSep_ne_nil '\n' l (List.map_eq_nil_iff.mp hh)
  rcases infOf_joinSep_cases hne h hnl with ⟨p', hp', hup'⟩
  rcases List.mem_map.mp hp' with ⟨q, hq, rfl⟩
  exact (hup'.trans (Py.strip_infOf q)).trans (part_infOf hq)

/-- The cleaned response never contains two adjacent spaces. -/
theorem noTwo_clean (text : List Char) :
    ¬([' ', ' '] <:+: cleanAiResponse text) := by
  unfold cleanAiResponse
  intro h
  have h7 := h.trans (Py.strip_infOf _)
  have h6 := infOf_stripLines (by decide) h7
  exact (noTwo_collapseHS _).1 h6

/-- The cleaned response never contains three consecutive newlines. -/
theorem noThree_clean (text : List Char) :
    ¬(['\n', '\n', '\n'] <:+: cleanAiResponse text) :=
  no_three_nl_of_W (W_cleanAiResponse text)

/-! ### Every line of the cleaned output is trimmed -/

/-- Every line (piece of the newline split) is strip-fixed. -/
def StrippedLines (x : List Char) : Prop :=
  ∀ p ∈ Py.splitSep '\n' x, Py.strip p = p

/-- Splitting a separator-free string yields one piece. -/
theorem splitSep_no_sep {sep : Char} {p : List Char} (hp : sep ∉ p) :
    Py.splitSep sep p = [p] := by
  induction p with
  | nil => rfl
  | cons c cs ih =>
    rw [Py.splitSep]
    have hc : ¬(c = sep) := fun hh => hp (hh ▸ List.mem_cons_self ..)
    rw [if_neg hc, ih (fun hmem => hp (List.mem_cons_of_mem _ hmem))]

/-- Splitting after a separator-free piece. -/
theorem splitSep_append_sep {sep : Char} {p : List Char} (hp : sep ∉ p)
    (t : List Char) :
    Py.splitSep sep (p ++ sep :: t) = p :: Py.splitSep sep t := by
  induction p with
  | nil => simp [Py.splitSep]
  | cons c cs ih =>
    rw [List.cons_append, Py.splitSep]
    have hc : ¬(c = sep) := fun hh => hp (hh ▸ List.mem_cons_self ..)
    rw [if_neg hc, ih (fun hmem => hp (List.mem_cons_of_mem _ hmem))]

/-- `splitSep` after `joinSep` restores separator-free pieces. -/
theorem splitSep_joinSep {sep : Char} {parts : List (List Char)}
    (hsep : ∀ p ∈ parts, sep ∉ p) (hne : parts ≠ []) :
    Py.splitSep sep (Py.joinSep sep parts) = parts := by
  induction parts with
  | nil => exact absurd rfl hne
  | cons p ps ih =>
    cases ps with
    | nil => exact splitSep_no_sep (hsep p (List.mem_cons_self ..))
    | cons q qs =>
      rw [Py.joinSep, splitSep_append_sep (hsep p (List.mem_cons_self ..)),
        ih (fun r hr => hsep r (List.mem_cons_of_mem _ hr)) (by simp)]

/-- The lines of `stripLines l` are exactly the stripped lines of `l`. -/
theorem splitSep_stripLines (l : List Char) :
    Py.splitSep '\n' (stripLines l) = (Py.splitSep '\n' l).map Py.strip := by
  unfold stripLines
  refine splitSep_joinSep ?_ ?_
  · intro p hp
    rcases List.mem_map.mp hp with ⟨q, hq, rfl⟩
    intro hmem
    exact Py.not_mem_of_mem_splitSep hq ((Py.strip_sublist q).subset hmem)
  · intro hh
    exact Py.splitSep_ne_nil '\n' l (List.map_eq_nil_iff.mp hh)

/-- Line stripping yields strip-fixed lines. -/
theorem strippedLines_stripLines (l : List Char) : StrippedLines (stripLines l) := by
  intro p hp
  rw [splitSep_stripLines] at hp
  rcases List.mem_map.mp hp with ⟨q, _, rfl⟩
  exact Py.strip_idem q

/-- Stripping a line that begins with whitespace strictly shrinks it. -/
theorem strip_length_head_ws {c : Char} {p : List Char}
    (hc : Py.isSpace c = true) : (Py.strip (c :: p)).length ≤ p.length := by
  rw [Py.strip_eq_rdrop, List.dropWhile_cons_of_pos hc]
  exact le_trans (List.rdropWhile_prefix ..).length_le
    (List.dropWhile_sublist ..).length_le

/-- Stripping a line that ends with whitespace strictly shrinks it. -/
theorem strip_length_last_ws {a : Char} {p : List Char}
    (ha : Py.isSpace a = true) : (Py.strip (p ++ [a])).length ≤ p.length := by
  rw [Py.strip_eq_rdrop, List.dropWhile_append]
  split
  · have h0 : List.dropWhile Py.isSpace [a] = [] := by
      rw [show [a] = a :: ([] : List Char) from rfl, List.dropWhile_cons_of_pos ha]
      rfl
    rw [h0]
    simp [List.rdropWhile]
  · rename_i hne
    have hdw : [a].dropWhile Py.isSpace = [] := by
      simp [List.dropWhile_cons, ha]
    rw [show p.dropWhile Py.isSpace ++ [a] =
      p.dropWhile Py.isSpace ++ [a] from rfl, List.rdropWhile_concat_pos _ _ _ ha]
    exact le_trans (List.rdropWhile_prefix ..).length_le
      (List.dropWhile_sublist ..).length_le

/-- Left trimming preserves strip-fixed lines. -/
theorem strippedLines_dropWhile (x : List Char) (hx : StrippedLines x) :
    StrippedLines (x.dropWhile Py.isSpace) := by
  induction x with
  | nil => simpa using hx
  | cons c cs ih =>
    by_cases hc : Py.isSpace c = true
    · rw [List.dropWhile_cons_of_pos hc]
      by_cases hnl : c = '\n'
      · subst hnl
        refine ih ?_
        intro p hp
        refine hx p ?_
        rw [Py.splitSep, if_pos rfl]
        exact List.mem_cons_of_mem _ hp
      · exfalso
        have hparts := hx
        unfold StrippedLines at hparts
        rw [Py.splitSep, if_neg hnl] at hparts
        cases hsp : Py.splitSep '\n' cs with
        | nil => exact Py.splitSep_ne_nil '\n' cs hsp
        | cons p ps =>
          rw [hsp] at hparts
          have h1 := hparts (c :: p) (List.mem_cons_self ..)
          have h2 : (Py.strip (c :: p)).length ≤ p.length := strip_length_head_ws hc
          rw [h1] at h2
          simp at h2
    · rw [List.dropWhile_cons_of_neg hc]
      exact hx

/-- Splitting with a trailing separator. -/
theorem splitSep_concat_sep (sep : Char) (l : List Char) :
    Py.splitSep sep (l ++ [sep]) = Py.splitSep sep l ++ [[]] := by
  induction l with
  | nil => simp [Py.splitSep]
  | cons c cs ih =>
    rw [List.cons_append, Py.splitSep, Py.splitSep]
    by_cases hc : c = sep
    · rw [if_pos hc, if_pos hc, ih]
      simp
    · rw [if_neg hc, if_neg hc, ih]
      cases hsp : Py.splitSep sep cs with
      | nil => exact absurd hsp (Py.splitSep_ne_nil _ _)
      | cons p ps => simp

/-- Splitting with a trailing non-separator: the last piece ends with it. -/
theorem splitSep_concat_not {sep a : Char} (ha : ¬(a = sep)) (l : List Char) :
    ∃ ps q, Py.splitSep sep (l ++ [a]) = ps ++ [q ++ [a]] ∧
      Py.splitSep sep l = ps ++ [q] := by
  induction l with
  | nil =>
    refine ⟨[], [], ?_, rfl⟩
    simp [Py.splitSep, ha]
  | cons c cs ih =>
    obtain ⟨ps, q, hps, hl⟩ := ih
    rw [List.cons_append, Py.splitSep, Py.splitSep]
    by_cases hc : c = sep
    · rw [if_pos hc, if_pos hc, hps, hl]
      exact ⟨[] :: ps, q, rfl, rfl⟩
    · rw [if_neg hc, if_neg hc, hps, hl]
      cases ps with
      | nil => exact ⟨[], c :: q, by simp⟩
      | cons r rs => exact ⟨(c :: r) :: rs, q, by simp⟩

/-- Right trimming preserves strip-fixed lines. -/
theorem strippedLines_rdrop (x : List Char) (hx : StrippedLines x) :
    StrippedLines (List.rdropWhile Py.isSpace x) := by
  induction x using List.reverseRecOn with
  | nil => simpa [List.rdropWhile] using hx
  | append_singleton l a ih =>
    by_cases ha : Py.isSpace a = true
    · rw [List.rdropWhile_concat_pos _ _ _ ha]
      by_cases hnl : a = '\n'
      · subst hnl
        refine ih ?_
        intro p hp
        refine hx p ?_
        rw [splitSep_concat_sep]
        exact List.mem_append_left _ hp
      · exfalso
        obtain ⟨ps, q, hps, _⟩ := splitSep_concat_not hnl l
        have hmem : q ++ [a] ∈ Py.splitSep '\n' (l ++ [a]) := by
          rw [hps]
          exact List.mem_append_right _ (List.mem_cons_self ..)
        have h1 := hx (q ++ [a]) hmem
        have h2 : (Py.strip (q ++ [a])).length ≤ q.length := strip_length_last_ws ha
        rw [h1] at h2
        simp at h2
    · rwa [List.rdropWhile_concat_neg _ _ _ ha]

/-- Full stripping preserves strip-fixed lines. -/
theorem strippedLines_strip (x : List Char) (hx : StrippedLines x) :
    StrippedLines (Py.strip x) := by
  rw [Py.strip_eq_rdrop]
  exact strippedLines_rdrop _ (strippedLines_dropWhile _ hx)

/-- Every line of the cleaned response is trimmed. -/
theorem strippedLines_clean (text : List Char) :
    StrippedLines (cleanAiResponse text) := by
  unfold cleanAiResponse
  exact strippedLines_strip _ (strippedLines_stripLines _)

end Clean






namespace App

theorem groupWords_ne_nil {w : List Char} {ws : List (List Char)} :
    groupWords (w :: ws) ≠ [] := by
  simp [groupWords]

end App

/-- C4.  `basic_document_processing` chunking is total: for every input
string — including the empty string and strings of only whitespace — the
chunk list is non-empty, and when the input has no content (no words, i.e.
only whitespace) it is the single placeholder chunk. -/
theorem C4_chunker_nonempty (filename text : List Char) :
    App.basicChunks filename text ≠ [] ∧
      ((∀ c ∈ text, Py.isSpace c) →
        App.basicChunks filename text =
          [("File ".data ++ filename ++ " uploaded but no text extracted".data)]) := by
  constructor
  · unfold App.basicChunks
    cases hw : Py.splitWhite text with
    | nil => simp [App.groupWords]
    | cons w ws =>
      by_cases hg : App.groupWords (w :: ws) = []
      · exact absurd hg App.groupWords_ne_nil
      · simp [hg]
  · intro h
    unfold App.basicChunks
    rw [Py.splitWhite_allSpace h]
    simp [App.groupWords]

/-- C8 (amended).  For every input string, `_clean_ai_response` returns text
in which no asterisk remains (the asterisk emphasis markers are stripped by
line 195; underscore emphasis is not reliably stripped, see the
counterexample), no more than two consecutive line breaks appear anywhere,
every run of horizontal whitespace is collapsed to a single space (no tab
survives and no two adjacent spaces occur), and every line is trimmed of
leading and trailing whitespace. -/
theorem C8_clean_response_normalizes (text : List Char) :
    '*' ∉ Clean.cleanAiResponse text ∧
    ¬(['\n', '\n', '\n'] <:+: Clean.cleanAiResponse text) ∧
    '\t' ∉ Clean.cleanAiResponse text ∧
    ¬([' ', ' '] <:+: Clean.cleanAiResponse text) ∧
    Clean.StrippedLines (Clean.cleanAiResponse text) :=
  ⟨Clean.star_not_mem_clean text, Clean.noThree_clean text,
   Clean.tab_not_mem_clean text, Clean.noTwo_clean text,
   Clean.strippedLines_clean text⟩

/-- C8 counterexample: the claim "markdown emphasis markers are stripped"
fails for underscore emphasis.  On the input `_hi_` the cleaning function
returns `_hi_` unchanged: the single-underscore italic markers survive
(only `\*`-runs and paired `__bold__` markers are removed by lines
195–200). -/
theorem C8_counterexample :
    Clean.cleanAiResponse "_hi_".data = "_hi_".data ∧
      '_' ∈ Clean.cleanAiResponse "_hi_".data := by
  have h : Clean.cleanAiResponse "_hi_".data = "_hi_".data := by
    unfold Clean.cleanAiResponse
    simp [Clean.removeStars, Clean.subWrapped2_cons, Clean.subWrapped2_one,
      Clean.subWrapped2_nil, Clean.subWrapped1, Clean.twoDelims, Clean.oneDelim,
      Clean.collapseNL, Clean.collapseNLRun, Clean.emitRun, Clean.collapseHS,
      Clean.collapseHSSkip, Clean.stripLines, Py.splitSep, Py.joinSep, Py.strip,
      Py.isSpace, Py.isHz]
  exact ⟨h, by rw [h]; decide⟩

namespace VS

/-- Keys after a dict assignment. -/
theorem keys_setDoc {V : Type} (docs : List (String × DocData V))
    (did : String) (d : DocData V) :
    (setDoc docs did d).map Prod.fst =
      if did ∈ docs.map Prod.fst then docs.map Prod.fst
      else docs.map Prod.fst ++ [did] := by
  unfold setDoc
  split
  · rw [List.map_map]
    refine List.map_congr_left ?_
    intro kv _
    by_cases h : kv.1 = did
    · simp [Function.comp, h]
    · simp [Function.comp, h]
  · simp

/-- Members of a dict after assignment. -/
theorem mem_setDoc {V : Type} {docs : List (String × DocData V)}
    {did : String} {d : DocData V} {kv : String × DocData V}
    (h : kv ∈ setDoc docs did d) : kv = (did, d) ∨ kv ∈ docs := by
  unfold setDoc at h
  split at h
  · rcases List.mem_map.mp h with ⟨kv0, hkv0, rfl⟩
    by_cases h2 : kv0.1 = did
    · simp [h2]
    · simp [h2]
      exact Or.inr hkv0
  · rcases List.mem_append.mp h with h2 | h2
    · exact Or.inr h2
    · exact Or.inl (by simpa using h2)

/-- The empty store satisfies the invariant. -/
theorem inv_empty (V : Type) : Inv (empty V) := by
  refine ⟨?_, ?_, ?_, ?_⟩ <;> simp [empty, Inv]

/-- `add_document` preserves the invariant. -/
theorem inv_add {V : Type} (encode : List Char → V) {s : Store V}
    (h : Inv s) (did : String) (chunks : List (List Char)) :
    Inv (addDocument encode s did chunks) := by
  obtain ⟨h1, h2, h3, h4⟩ := h
  have hkeysPW : s.documents.Pairwise (fun a b => a.1 ≠ b.1) := by
    rw [← List.pairwise_map]
    exact h3
  refine ⟨?_, ?_, ?_, ?_⟩
  · intro kv hkv
    rcases mem_setDoc hkv with rfl | hmem
    · rfl
    · exact h1 kv hmem
  · intro kv hkv
    have hlen : (addDocument encode s did chunks).indexVecs.length =
        s.indexVecs.length + chunks.length := by
      simp [addDocument]
    rw [hlen]
    rcases mem_setDoc hkv with rfl | hmem
    · simp
    · exact le_trans (h2 kv hmem) (Nat.le_add_right ..)
  · show ((setDoc s.documents did _).map Prod.fst).Nodup
    rw [keys_setDoc]
    split
    · exact h3
    · rename_i hnmem
      rw [List.nodup_append]
      exact ⟨h3, List.nodup_singleton _, by
        intro a ha hb
        rw [List.mem_singleton] at hb
        exact hnmem (hb ▸ ha)⟩
  · show (setDoc s.documents did _).Pairwise _
    unfold setDoc
    split
    · rename_i hmem
      rw [List.pairwise_map]
      have hcomb := h4.and hkeysPW
      refine List.Pairwise.imp_of_mem ?_ hcomb
      intro a b ha hb hab
      obtain ⟨hD, hne⟩ := hab
      by_cases haid : a.1 = did
      · have hbid : ¬(b.1 = did) := fun hh => hne (haid.trans hh.symm)
        rw [if_pos haid, if_neg hbid]
        right
        exact h2 b hb
      · by_cases hbid : b.1 = did
        · rw [if_neg haid, if_pos hbid]
          left
          exact h2 a ha
        · rw [if_neg haid, if_neg hbid]
          exact hD
    · rw [List.pairwise_append]
      refine ⟨h4, List.pairwise_singleton .., ?_⟩
      intro a ha b hb
      rw [List.mem_singleton] at hb
      subst hb
      left
      exact h2 a ha

/-- `delete_document` preserves the invariant. -/
theorem inv_delete {V : Type} {s : Store V} (h : Inv s) (did : String) :
    Inv (deleteDocument s did) := by
  obtain ⟨h1, h2, h3, h4⟩ := h
  have hsub : List.Sublist
      ((deleteDocument s did).documents) s.documents := by
    exact List.filter_sublist ..
  refine ⟨?_, ?_, ?_, ?_⟩
  · intro kv hkv
    exact h1 kv (hsub.subset hkv)
  · intro kv hkv
    exact h2 kv (hsub.subset hkv)
  · exact List.Nodup.sublist (hsub.map Prod.fst) h3
  · exact h4.sublist hsub

/-- Every operation preserves the invariant. -/
theorem inv_applyOp {V : Type} (encode : List Char → V) {s : Store V}
    (h : Inv s) (op : Op) : Inv (applyOp encode s op) := by
  cases op with
  | add did chunks => exact inv_add encode h did chunks
  | del did => exact inv_delete h did

theorem inv_runFrom {V : Type} (encode : List Char → V) {s : Store V}
    (h : Inv s) (ops : List Op) : Inv (runFrom encode s ops) := by
  induction ops generalizing s with
  | nil => exact h
  | cons op ops ih => exact ih (inv_applyOp encode h op)

/-- Every reachable store satisfies the invariant. -/
theorem inv_run {V : Type} (encode : List Char → V) (ops : List Op) :
    Inv (run encode ops) :=
  inv_runFrom encode (inv_empty V) ops

/-- All ranges of a trace start at or after the replay base. -/
theorem assignedRanges_lb (ops : List Op) :
    ∀ n, ∀ r ∈ assignedRanges n ops, n ≤ r.1 ∧ r.1 ≤ r.2 := by
  induction ops with
  | nil => intro n r hr; cases hr
  | cons op ops ih =>
    intro n r hr
    cases op with
    | add did chunks =>
      rw [assignedRanges] at hr
      rcases List.mem_cons.mp hr with rfl | hmem
      · exact ⟨le_refl _, Nat.le_add_right ..⟩
      · have := ih (n + chunks.length) r hmem
        omega
    | del did =>
      rw [assignedRanges] at hr
      exact ih n r hr

/-- Ranges are assigned in monotonically increasing, never-reused order:
every later range starts at or after every earlier range's end. -/
theorem assignedRanges_pairwise (ops : List Op) :
    ∀ n, (assignedRanges n ops).Pairwise (fun a b => a.2 ≤ b.1) := by
  induction ops with
  | nil => intro n; simp [assignedRanges]
  | cons op ops ih =>
    intro n
    cases op with
    | add did chunks =>
      rw [assignedRanges]
      refine List.Pairwise.cons ?_ (ih _)
      intro r hr
      exact (assignedRanges_lb ops _ r hr).1
    | del did =>
      rw [assignedRanges]
      exact ih n

/-- The index only grows. -/
theorem ntotal_runFrom {V : Type} (encode : List Char → V) (ops : List Op) :
    ∀ s : Store V, s.indexVecs.length ≤ (runFrom encode s ops).indexVecs.length := by
  induction ops with
  | nil => intro s; exact le_refl _
  | cons op ops ih =>
    intro s
    refine le_trans ?_ (ih (applyOp encode s op))
    cases op with
    | add did chunks => simp [applyOp, addDocument]
    | del did => simp [applyOp, deleteDocument]

/-- Every stored range of a reachable store was assigned by its trace. -/
theorem doc_range_mem_assigned {V : Type} (encode : List Char → V)
    (ops : List Op) :
    ∀ s : Store V, ∀ kv ∈ (runFrom encode s ops).documents,
      (kv.2.start_idx, kv.2.end_idx) ∈
        assignedRanges s.indexVecs.length ops ∨ kv ∈ s.documents := by
  induction ops with
  | nil => intro s kv hkv; exact Or.inr hkv
  | cons op ops ih =>
    intro s kv hkv
    cases op with
    | add did chunks =>
      have hstep : runFrom encode s (Op.add did chunks :: ops) =
          runFrom encode (addDocument encode s did chunks) ops := rfl
      rw [hstep] at hkv
      rcases ih (addDocument encode s did chunks) kv hkv with hmem | hmem
      · left
        rw [assignedRanges]
        refine List.mem_cons_of_mem _ ?_
        have : (addDocument encode s did chunks).indexVecs.length =
            s.indexVecs.length + chunks.length := by simp [addDocument]
        rwa [this] at hmem
      · rcases mem_setDoc hmem with rfl | hmem2
        · left
          rw [assignedRanges]
          exact List.mem_cons_self ..
        · exact Or.inr hmem2
    | del did =>
      have hstep : runFrom encode s (Op.del did :: ops) =
          runFrom encode (deleteDocument s did) ops := rfl
      rw [hstep] at hkv
      rcases ih (deleteDocument s did) kv hkv with hmem | hmem
      · left
        rw [assignedRanges]
        exact hmem
      · exact Or.inr ((List.filter_sublist ..).subset hmem)

end VS

namespace VS

/-- `findSome?` form of `_get_chunk_by_index`: a hit names a stored
document owning the returned chunk. -/
theorem findChunk_mem {V : Type} (idx : Nat) :
    ∀ (docs : List (String × DocData V)) {t : List Char} {did : String},
      docs.findSome? (fun kv =>
        if kv.2.start_idx ≤ idx ∧ idx < kv.2.end_idx ∧
            idx - kv.2.start_idx < kv.2.chunks.length then
          some (kv.2.chunks.getD (idx - kv.2.start_idx) [], kv.1)
        else none) = some (t, did) →
      ∃ kv ∈ docs, kv.1 = did ∧ t ∈ kv.2.chunks := by
  intro docs
  induction docs with
  | nil => intro t did h; cases h
  | cons kv kvs ih =>
    intro t did h
    rw [List.findSome?_cons] at h
    split at h
    · rename_i val heq
      split at heq
      · rename_i hcond
        injection heq with heq1
        rw [← heq1] at h
        injection h with h1
        injection h1 with ht hdid
        refine ⟨kv, List.mem_cons_self .., hdid, ?_⟩
        rw [← ht, List.getD_eq_getElem _ _ hcond.2.2]
        exact List.getElem_mem hcond.2.2
      · cases heq
    · rcases ih h with ⟨kv2, hkv2, hdid, ht⟩
      exact ⟨kv2, List.mem_cons_of_mem _ hkv2, hdid, ht⟩

/-- A successful `_get_chunk_by_index` resolves to a currently stored
document that owns the returned chunk text. -/
theorem getChunk_mem {V : Type} {s : Store V} {idx : Nat} {t : List Char}
    {did : String} (h : getChunkByIndex s idx = some (t, did)) :
    ∃ kv ∈ s.documents, kv.1 = did ∧ t ∈ kv.2.chunks := by
  unfold getChunkByIndex at h
  exact findChunk_mem idx s.documents h

/-- Every result of the search loop was passed by the filter or was
already accumulated. -/
theorem searchLoop_mem {pass : Nat → Option (List Char × Int)} {k : Nat} :
    ∀ (l : List Nat) (acc : List (List Char × Int)) r,
      r ∈ searchLoop pass k l acc → r ∈ acc ∨ ∃ i ∈ l, pass i = some r := by
  intro l
  induction l with
  | nil => intro acc r hr; exact Or.inl hr
  | cons i rest ih =>
    intro acc r hr
    rw [searchLoop] at hr
    by_cases hpass : ∃ v, pass i = some v
    · obtain ⟨v, hv⟩ := hpass
      rw [hv] at hr
      split at hr
      · rcases List.mem_append.mp hr with h2 | h2
        · exact Or.inl h2
        · rw [List.mem_singleton] at h2
          exact Or.inr ⟨i, List.mem_cons_self .., h2 ▸ hv⟩
      · rcases ih _ r hr with h2 | ⟨j, hj, hjr⟩
        · rcases List.mem_append.mp h2 with h3 | h3
          · exact Or.inl h3
          · rw [List.mem_singleton] at h3
            exact Or.inr ⟨i, List.mem_cons_self .., h3 ▸ hv⟩
        · exact Or.inr ⟨j, List.mem_cons_of_mem _ hj, hjr⟩
    · push_neg at hpass
      have hnone : pass i = none := by
        cases hp : pass i with
        | none => rfl
        | some v => exact absurd hp (by simpa using hpass v)
      rw [hnone] at hr
      split at hr
      · exact Or.inl hr
      · rcases ih _ r hr with h2 | ⟨j, hj, hjr⟩
        · exact Or.inl h2
        · exact Or.inr ⟨j, List.mem_cons_of_mem _ hj, hjr⟩

/-- Every search result is a chunk of a currently stored (non-deleted)
document that matches the optional document filter. -/
theorem search_origin {V : Type} [Inhabited V] (sim : V → V → Int)
    (encode : List Char → V) (s : Store V) (q : List Char)
    (f : Option String) (k : Nat) :
    ∀ r ∈ search sim encode s q f k,
      ∃ kv ∈ s.documents, r.1 ∈ kv.2.chunks ∧ r.1 ≠ [] ∧
        (f = none ∨ f = some kv.1) := by
  intro r hr
  unfold search at hr
  split at hr
  · cases hr
  · rcases searchLoop_mem _ _ r hr with h | ⟨i, _, hi⟩
    · cases h
    · unfold passFilter at hi
      split at hi
      · rename_i t did hchunk
        split at hi
        · rename_i hcond
          injection hi with hi1
          rcases getChunk_mem hchunk with ⟨kv, hkv, hdid, ht⟩
          refine ⟨kv, hkv, ?_, ?_, ?_⟩
          · rw [← hi1]; exact ht
          · rw [← hi1]; exact hcond.1
          · rw [hdid]
            rcases hcond.2 with h2 | h2
            · exact Or.inl h2
            · exact Or.inr h2
        · cases hi
      · cases hi

/-- `delete_document` removes the key. -/
theorem keys_delete_not_mem {V : Type} (s : Store V) (d : String) :
    d ∉ keys (deleteDocument s d) := by
  intro hmem
  unfold keys deleteDocument at hmem
  rcases List.mem_map.mp hmem with ⟨kv, hkv, hfst⟩
  have := List.of_mem_filter hkv
  simp at this
  exact this (by simpa using hfst)

/-- Operations that never re-add `d` keep `d` out of the keys. -/
theorem keys_applyOp_not_mem {V : Type} (encode : List Char → V)
    {s : Store V} {d : String} (h : d ∉ keys s) (op : Op)
    (hop : ∀ chunks, op ≠ Op.add d chunks) :
    d ∉ keys (applyOp encode s op) := by
  cases op with
  | add did chunks =>
    have hne : did ≠ d := by
      intro hh
      exact hop chunks (by rw [hh])
    show d ∉ (setDoc s.documents did _).map Prod.fst
    rw [keys_setDoc]
    split
    · exact h
    · intro hmem
      rcases List.mem_append.mp hmem with h2 | h2
      · exact h h2
      · rw [List.mem_singleton] at h2
        exact hne h2.symm
  | del did =>
    intro hmem
    unfold keys applyOp deleteDocument at hmem
    rcases List.mem_map.mp hmem with ⟨kv, hkv, hfst⟩
    exact h (List.mem_map.mpr ⟨kv, (List.filter_sublist ..).subset hkv, hfst⟩)

theorem keys_runFrom_not_mem {V : Type} (encode : List Char → V)
    {s : Store V} {d : String} (h : d ∉ keys s) (ops : List Op)
    (hops : ∀ op ∈ ops, ∀ chunks, op ≠ Op.add d chunks) :
    d ∉ keys (runFrom encode s ops) := by
  induction ops generalizing s with
  | nil => exact h
  | cons op ops ih =>
    exact ih
      (keys_applyOp_not_mem encode h op (hops op (List.mem_cons_self ..)))
      (fun op2 hop2 => hops op2 (List.mem_cons_of_mem _ hop2))

end VS

/-- C1.  For every state of the vector store and every document id `d`,
after `delete_document d`, every subsequent `search` — with any query, any
`top_k`, any or no document filter, and after any further operations that
do not re-add `d` — returns only chunks owned by currently stored
documents other than `d`: no returned chunk originates from `d`, with no
restart or index reload required. -/
theorem C1_deleted_never_returned {V : Type} [Inhabited V]
    (sim : V → V → Int) (encode : List Char → V) (s : VS.Store V)
    (d : String) (ops : List VS.Op)
    (hops : ∀ op ∈ ops, ∀ chunks, op ≠ VS.Op.add d chunks)
    (q : List Char) (f : Option String) (k : Nat) :
    ∀ r ∈ VS.search sim encode
        (VS.runFrom encode (VS.deleteDocument s d) ops) q f k,
      ∃ kv ∈ (VS.runFrom encode (VS.deleteDocument s d) ops).documents,
        kv.1 ≠ d ∧ r.1 ∈ kv.2.chunks := by
  intro r hr
  rcases VS.search_origin sim encode _ q f k r hr with ⟨kv, hkv, ht, _, _⟩
  refine ⟨kv, hkv, ?_, ht⟩
  intro hkvd
  have hnk := VS.keys_runFrom_not_mem encode
    (VS.keys_delete_not_mem s d) ops hops
  exact hnk (List.mem_map.mpr ⟨kv, hkv, hkvd⟩)

/-- C9.  In every reachable state (any operation trace from the empty
store): each stored document's range is contiguous with length equal to its
chunk count and lies within the index; ranges of distinct stored documents
are pairwise non-overlapping; every stored range was assigned by some add;
and the trace's assigned ranges are monotonically increasing — each add's
start index is at least every previously assigned end index, so global
indices are never reused even after deletion. -/
theorem C9_index_ranges {V : Type} (encode : List Char → V)
    (ops : List VS.Op) :
    (∀ kv ∈ (VS.run encode ops).documents,
        kv.2.end_idx = kv.2.start_idx + kv.2.chunks.length) ∧
    (∀ kv ∈ (VS.run encode ops).documents,
        kv.2.end_idx ≤ (VS.run encode ops).indexVecs.length) ∧
    (VS.run encode ops).documents.Pairwise
      (fun a b => a.2.end_idx ≤ b.2.start_idx ∨ b.2.end_idx ≤ a.2.start_idx) ∧
    (∀ kv ∈ (VS.run encode ops).documents,
        (kv.2.start_idx, kv.2.end_idx) ∈ VS.assignedRanges 0 ops) ∧
    (VS.assignedRanges 0 ops).Pairwise (fun a b => a.2 ≤ b.1) := by
  obtain ⟨h1, h2, _, h4⟩ := VS.inv_run encode ops
  refine ⟨h1, h2, h4, ?_, VS.assignedRanges_pairwise ops 0⟩
  intro kv hkv
  rcases VS.doc_range_mem_assigned encode ops (VS.empty V) kv hkv with h | h
  · simpa [VS.empty] using h
  · cases h

namespace VS

/-- `Pairwise` transfers through `filterMap`. -/
theorem pairwise_filterMap_of {α β : Type} {R : α → α → Prop}
    {S : β → β → Prop} {f : α → Option β}
    (hf : ∀ a b x y, R a b → f a = some x → f b = some y → S x y) :
    ∀ l : List α, List.Pairwise R l → List.Pairwise S (l.filterMap f) := by
  intro l
  induction l with
  | nil => intro _; simp
  | cons a l ih =>
    intro h
    rw [List.pairwise_cons] at h
    cases hfa : f a with
    | none => rw [List.filterMap_cons_none hfa]; exact ih h.2
    | some x =>
      rw [List.filterMap_cons_some hfa]
      refine List.Pairwise.cons ?_ (ih h.2)
      intro y hy
      rcases List.mem_filterMap.mp hy with ⟨b, hb, hfb⟩
      exact hf a b x y (h.1 b hb) hfa hfb

/-- `filterMap` only consumes elements on which it fires. -/
theorem filterMap_filter_isSome {α β : Type} (f : α → Option β) :
    ∀ l : List α,
      l.filterMap f = (l.filter (fun a => (f a).isSome)).filterMap f := by
  intro l
  induction l with
  | nil => simp
  | cons a l ih =>
    cases hfa : f a with
    | none =>
      rw [List.filterMap_cons_none hfa, List.filter_cons,
        if_neg (by simp [hfa]), ih]
    | some x =>
      rw [List.filterMap_cons_some hfa, List.filter_cons,
        if_pos (by simp [hfa]), List.filterMap_cons_some hfa, ih]

/-- On a list where the function always fires, `filterMap` and `take`
commute. -/
theorem filterMap_take_comm {α β : Type} (f : α → Option β) :
    ∀ (l : List α) (k : Nat), (∀ a ∈ l, (f a).isSome) →
      (l.filterMap f).take k = (l.take k).filterMap f := by
  intro l
  induction l with
  | nil => intro k _; simp
  | cons a l ih =>
    intro k hl
    have ha : (f a).isSome := hl a (List.mem_cons_self ..)
    obtain ⟨x, hx⟩ := Option.isSome_iff_exists.mp ha
    cases k with
    | zero => simp
    | succ k =>
      rw [List.filterMap_cons_some hx, List.take_succ_cons,
        List.take_succ_cons, List.filterMap_cons_some hx,
        ih k (fun b hb => hl b (List.mem_cons_of_mem _ hb))]

/-- The result loop equals "filter then truncate" while the accumulator is
below the limit. -/
theorem searchLoop_eq {pass : Nat → Option (List Char × Int)} {k : Nat} :
    ∀ (l : List Nat) (acc : List (List Char × Int)), acc.length < k →
      searchLoop pass k l acc = (acc ++ l.filterMap pass).take k := by
  intro l
  induction l with
  | nil =>
    intro acc hacc
    rw [searchLoop, List.filterMap_nil, List.append_nil,
      List.take_of_length_le (le_of_lt hacc)]
  | cons i rest ih =>
    intro acc hacc
    rw [searchLoop]
    cases hpi : pass i with
    | none =>
      simp only [hpi]
      rw [if_neg (by omega), ih acc hacc, List.filterMap_cons_none hpi]
    | some r =>
      simp only [hpi]
      by_cases hstop : k ≤ (acc ++ [r]).length
      · rw [if_pos hstop]
        have hlen : (acc ++ [r]).length = k := by
          rw [List.length_append] at hstop ⊢
          simp at hstop ⊢
          omega
        rw [List.filterMap_cons_some hpi,
          show acc ++ r :: rest.filterMap pass =
            (acc ++ [r]) ++ rest.filterMap pass by simp,
          ← hlen, List.take_left]
      · rw [if_neg hstop]
        push_neg at hstop
        rw [ih (acc ++ [r]) hstop, List.filterMap_cons_some hpi]
        simp

/-- `VectorStore.search` as "take the best 2k, filter, truncate to k". -/
theorem search_eq {V : Type} [Inhabited V] (sim : V → V → Int)
    (encode : List Char → V) (s : Store V) (q : List Char)
    (f : Option String) (k : Nat) :
    search sim encode s q f k =
      (((sortedCandidates (scoresOf sim (encode q) s.indexVecs)
          s.indexVecs.length).take (k * 2)).filterMap
        (passFilter s f (scoresOf sim (encode q) s.indexVecs))).take k := by
  unfold search
  split
  · rename_i h0
    rw [h0]
    simp [sortedCandidates, List.insertionSort]
  · by_cases hk : k = 0
    · subst hk
      simp [searchLoop]
    · rw [searchLoop_eq _ [] (by simp only [List.length_nil]; omega)]
      simp

/-- The modelled FAISS candidate order is sorted: descending score, ties by
ascending global index. -/
theorem sortedCandidates_sorted (sc : Nat → Int) (n : Nat) :
    List.Pairwise (candRel sc) (sortedCandidates sc n) :=
  List.sorted_insertionSort (candRel sc) (List.range n)

/-- `findSome?` form of `_get_chunk_by_index` with the range facts. -/
theorem findChunk_spec {V : Type} (idx : Nat) :
    ∀ (docs : List (String × DocData V)) {t : List Char} {did : String},
      docs.findSome? (fun kv =>
        if kv.2.start_idx ≤ idx ∧ idx < kv.2.end_idx ∧
            idx - kv.2.start_idx < kv.2.chunks.length then
          some (kv.2.chunks.getD (idx - kv.2.start_idx) [], kv.1)
        else none) = some (t, did) →
      ∃ kv ∈ docs, kv.1 = did ∧ kv.2.start_idx ≤ idx ∧ idx < kv.2.end_idx ∧
        t = kv.2.chunks.getD (idx - kv.2.start_idx) [] := by
  intro docs
  induction docs with
  | nil => intro t did h; cases h
  | cons kv kvs ih =>
    intro t did h
    rw [List.findSome?_cons] at h
    split at h
    · rename_i val heq
      split at heq
      · rename_i hcond
        injection heq with heq1
        rw [← heq1] at h
        injection h with h1
        injection h1 with ht hdid
        exact ⟨kv, List.mem_cons_self .., hdid, hcond.1, hcond.2.1, ht.symm⟩
      · cases heq
    · rcases ih h with ⟨kv2, hkv2, hdid, hs2, he2, ht2⟩
      exact ⟨kv2, List.mem_cons_of_mem _ hkv2, hdid, hs2, he2, ht2⟩

/-- With contiguous, pairwise-disjoint ranges, `_get_chunk_by_index`
resolves a covered index to exactly its covering document. -/
theorem findChunk_of_covering {V : Type} (idx : Nat) :
    ∀ (docs : List (String × DocData V)),
      (∀ kv ∈ docs, kv.2.end_idx = kv.2.start_idx + kv.2.chunks.length) →
      docs.Pairwise (fun a b =>
        a.2.end_idx ≤ b.2.start_idx ∨ b.2.end_idx ≤ a.2.start_idx) →
      ∀ kv ∈ docs, kv.2.start_idx ≤ idx → idx < kv.2.end_idx →
        docs.findSome? (fun kv =>
          if kv.2.start_idx ≤ idx ∧ idx < kv.2.end_idx ∧
              idx - kv.2.start_idx < kv.2.chunks.length then
            some (kv.2.chunks.getD (idx - kv.2.start_idx) [], kv.1)
          else none) =
          some (kv.2.chunks.getD (idx - kv.2.start_idx) [], kv.1) := by
  intro docs
  induction docs with
  | nil => intro _ _ kv hkv; cases hkv
  | cons a rest ih =>
    intro h1 h4 kv hkv hs he
    rw [List.pairwise_cons] at h4
    rcases List.mem_cons.mp hkv with rfl | hmem
    · rw [List.findSome?_cons, if_pos]
      have := h1 kv (List.mem_cons_self ..)
      exact ⟨hs, he, by omega⟩
    · have hanone : (if a.2.start_idx ≤ idx ∧ idx < a.2.end_idx ∧
          idx - a.2.start_idx < a.2.chunks.length then
            some (a.2.chunks.getD (idx - a.2.start_idx) [], a.1)
          else none) = none := by
        rw [if_neg]
        intro hcond
        rcases h4.1 kv hmem with hd | hd <;> omega
      rw [List.findSome?_cons, hanone]
      exact ih (fun kv2 hkv2 => h1 kv2 (List.mem_cons_of_mem _ hkv2)) h4.2
        kv hmem hs he

/-- Under the store invariant, the search filter fires exactly on the live
indices. -/
theorem pass_isSome_iff {V : Type} {s : Store V} (hInv : Inv s)
    (f : Option String) (sc : Nat → Int) (i : Nat) :
    (passFilter s f sc i).isSome ↔ Live s f i := by
  obtain ⟨h1, _, _, h4⟩ := hInv
  constructor
  · intro h
    unfold passFilter at h
    split at h
    · rename_i t did hchunk
      split at h
      · rename_i hcond
        unfold getChunkByIndex at hchunk
        rcases findChunk_spec i s.documents hchunk with
          ⟨kv, hkv, hdid, hsx, hex, ht⟩
        refine ⟨kv, hkv, hsx, hex, ?_, ?_⟩
        · rw [← ht]; exact hcond.1
        · rw [hdid]; exact hcond.2
      · cases h
    · cases h
  · intro h
    obtain ⟨kv, hkv, hsx, hex, htne, hf⟩ := h
    have hfind := findChunk_of_covering i s.documents h1 h4 kv hkv hsx hex
    have hpf : passFilter s f sc i =
        some (kv.2.chunks.getD (i - kv.2.start_idx) [], sc i) := by
      unfold passFilter getChunkByIndex
      rw [hfind]
      exact if_pos ⟨htne, hf⟩
    rw [hpf]
    rfl

end VS

namespace VS

/-- The score a passing candidate carries is its candidate score. -/
theorem passFilter_score {V : Type} {s : Store V} {f : Option String}
    {sc : Nat → Int} {i : Nat} {x : List Char × Int}
    (h : passFilter s f sc i = some x) : x.2 = sc i := by
  unfold passFilter at h
  split at h
  · split at h
    · injection h with h1
      rw [← h1]
    · cases h
  · cases h

/-- Filtering a prefix yields a prefix of the filtered list. -/
theorem filter_take_prefOf {α : Type} (p : α → Bool) (l : List α) (n : Nat) :
    (l.take n).filter p <+: l.filter p :=
  ⟨(l.drop n).filter p, by rw [← List.filter_append, List.take_append_drop]⟩

/-- Equal prefixes of a list agree on any take within the shorter one. -/
theorem take_prefOf_eq {α : Type} {l1 l2 : List α} {k : Nat}
    (h : l1 <+: l2) (hk : k ≤ l1.length) : l1.take k = l2.take k := by
  rcases h with ⟨t, rfl⟩
  rw [List.take_append_of_le_length hk]

/-- If at least `k` of the first `k*2` candidates fire, truncating after the
window equals truncating the full hit list: the window hides nothing. -/
theorem filterMap_take_of_le_countP {α β : Type} (f : α → Option β)
    (l : List α) (k : Nat)
    (hk : k ≤ ((l.take (k * 2)).filter (fun a => (f a).isSome)).length) :
    ((l.take (k * 2)).filterMap f).take k =
      ((l.filter (fun a => (f a).isSome)).take k).filterMap f := by
  rw [filterMap_filter_isSome f (l.take (k * 2))]
  rw [filterMap_take_comm f
    ((l.take (k * 2)).filter (fun a => (f a).isSome)) k
    (fun a ha => by simpa using List.of_mem_filter ha)]
  rw [take_prefOf_eq (filter_take_prefOf _ l (k * 2)) hk]

end VS

/-- C2. For every reachable store state and query, `search` returns at most
`top_k` results, in descending score order with ties broken by ascending
global index (the candidate order is sorted under `candRel` and is a
permutation of all global indices), every result is a live chunk of a
stored, filter-matching document, and the result equals the filtered
truncation of the best `top_k * 2` candidates.  CORRECTED completeness:
the code only consults the best `top_k * 2` candidates, so all `top_k`
best live chunks are returned only when at least `top_k` of those first
`top_k * 2` candidates are live; without that proviso the claim fails
(see the counterexample). -/
theorem C2_search_ranked {V : Type} [Inhabited V] (sim : V → V → Int)
    (encode : List Char → V) (ops : List VS.Op) (q : List Char)
    (f : Option String) (k : Nat)
    (s : VS.Store V) (hs : s = VS.run encode ops)
    (sc : Nat → Int) (hsc : sc = VS.scoresOf sim (encode q) s.indexVecs)
    (pass : Nat → Option (List Char × Int))
    (hpass : pass = VS.passFilter s f sc)
    (best : List Nat)
    (hbest : best = VS.sortedCandidates sc s.indexVecs.length)
    (res : List (List Char × Int))
    (hres : res = VS.search sim encode s q f k) :
    res.length ≤ k ∧
    List.Pairwise (fun a b : List Char × Int => b.2 ≤ a.2) res ∧
    (∀ r ∈ res, ∃ kv ∈ s.documents, r.1 ∈ kv.2.chunks ∧ r.1 ≠ [] ∧
      (f = none ∨ f = some kv.1)) ∧
    (∀ i, (pass i).isSome ↔ VS.Live s f i) ∧
    List.Pairwise (VS.candRel sc) best ∧
    best.Perm (List.range s.indexVecs.length) ∧
    res = ((best.take (k * 2)).filterMap pass).take k ∧
    (k ≤ ((best.take (k * 2)).filter (fun i => (pass i).isSome)).length →
      res = ((best.filter (fun i => (pass i).isSome)).take k).filterMap
        pass) := by
  subst hs
  subst hsc
  subst hpass
  subst hbest
  subst hres
  have hInv := VS.inv_run encode ops
  refine ⟨?_, ?_, ?_, ?_, ?_, ?_, ?_, ?_⟩
  · rw [VS.search_eq]
    apply List.length_take_le
  · rw [VS.search_eq]
    refine List.Pairwise.sublist (List.take_sublist _ _) ?_
    refine VS.pairwise_filterMap_of ?_ _
      (List.Pairwise.sublist (List.take_sublist _ _)
        (VS.sortedCandidates_sorted _ _))
    intro a b x y hR hx hy
    have hxa := VS.passFilter_score hx
    have hyb := VS.passFilter_score hy
    rw [hxa, hyb]
    unfold VS.candRel at hR
    omega
  · intro r hr
    exact VS.search_origin sim encode _ q f k r hr
  · intro i
    exact VS.pass_isSome_iff hInv f _ i
  · exact VS.sortedCandidates_sorted _ _
  · unfold VS.sortedCandidates
    exact List.perm_insertionSort _ _
  · exact VS.search_eq sim encode _ q f k
  · intro hk
    rw [VS.search_eq]
    exact VS.filterMap_take_of_le_countP _ _ k hk

/-- C2 witness: the theorem applied at a concrete store. -/
theorem C2_search_ranked_witness :
    (VS.search (fun a b : Int => a * b) (fun l => (l.length : Int))
      (VS.run (fun l => (l.length : Int)) [VS.Op.add "A" ["aa".data]])
      "x".data none 1).length ≤ 1 :=
  (C2_search_ranked (fun a b : Int => a * b) (fun l => (l.length : Int))
    [VS.Op.add "A" ["aa".data]] "x".data none 1 _ rfl _ rfl _ rfl _ rfl
    _ rfl).1

/-- C2 counterexample to the literal claim: a store holding one live chunk
(index 2, document "B") whose two dead, deleted-document candidates
outscore it.  With `top_k = 1` the code fetches only `top_k * 2 = 2`
candidates, both dead, and returns no results even though a live chunk
exists, refuting "all of them whenever at least top_k live chunks
exist". -/
theorem C2_counterexample :
    VS.search (fun a b : Int => a * b) (fun l => (l.length : Int))
      (VS.run (fun l => (l.length : Int))
        [VS.Op.add "A" ["aaa".data, "aa".data], VS.Op.add "B" ["b".data],
          VS.Op.del "A"])
      "x".data none 1 = [] ∧
    VS.Live (VS.run (fun l => (l.length : Int))
        [VS.Op.add "A" ["aaa".data, "aa".data], VS.Op.add "B" ["b".data],
          VS.Op.del "A"]) none 2 := by
  constructor
  · decide
  · unfold VS.Live
    decide

/-- C6.  CORRECTED load behaviour: a deserialization failure of either
persisted file resets BOTH the index and the document mapping to empty,
and when both files are missing the store starts empty; but a missing
file is skipped individually by the `os.path.exists` guard, so a missing
document mapping leaves a successfully loaded index in place (and vice
versa) — the literal "missing ... initializes with an empty index and
empty document mapping" fails (see the counterexample).  Loading is total:
no exception leaves construction. -/
theorem C6_load_degrades {V : Type}
    (indexFile : Option (Except Unit (List V)))
    (docsFile : Option (Except Unit (List (String × VS.DocData V)))) :
    (indexFile = some (Except.error ()) ∨ docsFile = some (Except.error ()) →
      VS.loadStore indexFile docsFile = ⟨[], []⟩) ∧
    VS.loadStore (none : Option (Except Unit (List V)))
      (none : Option (Except Unit (List (String × VS.DocData V)))) =
      ⟨[], []⟩ ∧
    (docsFile = none → (VS.loadStore indexFile docsFile).documents = []) ∧
    (indexFile = none → (VS.loadStore indexFile docsFile).indexVecs = []) := by
  refine ⟨?_, rfl, ?_, ?_⟩
  · intro h
    rcases h with h | h
    · rw [h]
      rfl
    · rw [h]
      rcases indexFile with _ | e | i <;> rfl
  · intro h
    rw [h]
    rcases indexFile with _ | e | i <;> rfl
  · intro h
    rw [h]
    rcases docsFile with _ | e | d <;> rfl

/-- C6 witness: a corrupt index file yields the empty store. -/
theorem C6_load_degrades_witness :
    ((some (Except.error ()) : Option (Except Unit (List Int))) =
      some (Except.error ()) ∨
      (none : Option (Except Unit (List (String × VS.DocData Int)))) =
        some (Except.error ())) ∧
    VS.loadStore (some (Except.error ()))
      (none : Option (Except Unit (List (String × VS.DocData Int)))) =
      ⟨[], []⟩ :=
  ⟨Or.inl rfl,
    (C6_load_degrades (some (Except.error ()))
      (none : Option (Except Unit (List (String × VS.DocData Int))))).1
      (Or.inl rfl)⟩

/-- C6 counterexample to the literal claim: with the document-mapping file
missing but the index file valid, construction keeps the loaded non-empty
index instead of initializing an empty one. -/
theorem C6_counterexample :
    (VS.loadStore (some (Except.ok [(5 : Int)]))
      (none : Option (Except Unit (List (String × VS.DocData Int))))).indexVecs =
      [(5 : Int)] ∧ ((5 : Int)) :: [] ≠ [] :=
  ⟨rfl, by decide⟩

/-- C7.  CORRECTED: after a failed persistence step both mutating
operations keep the in-memory store usable with the mutation applied, but
the operation does NOT report the failure to its caller: `_save_store`
swallows the exception and the caller always sees a normal return
(`Except.ok ()`); the only trace of the failure is a printed log line. -/
theorem C7_save_failure_swallowed {V : Type} (encode : List Char → V)
    (s : VS.Store V) (did : String) (chunks : List (List Char))
    (saveOk : Bool) :
    (VS.addDocumentChecked encode saveOk s did chunks).1 =
      VS.addDocument encode s did chunks ∧
    (VS.addDocumentChecked encode saveOk s did chunks).2.1 =
      Except.ok () ∧
    (VS.deleteDocumentChecked saveOk s did).1 = VS.deleteDocument s did ∧
    (VS.deleteDocumentChecked saveOk s did).2.1 = Except.ok () ∧
    (saveOk = false →
      (VS.addDocumentChecked encode saveOk s did chunks).2.2 =
        ["Failed to save vector store".data]) := by
  refine ⟨rfl, rfl, rfl, rfl, ?_⟩
  intro h
  rw [h]
  rfl

/-- C7 witness: the theorem applied at a concrete failed save. -/
theorem C7_save_failure_swallowed_witness :
    (false = false) ∧
    (VS.addDocumentChecked (fun l => (l.length : Int)) false
      (VS.empty Int) "A" ["a".data]).2.2 =
      ["Failed to save vector store".data] :=
  ⟨rfl,
    (C7_save_failure_swallowed (fun l => (l.length : Int)) (VS.empty Int)
      "A" ["a".data] false).2.2.2.2 rfl⟩

/-- C7 counterexample to the literal claim: even though the save failed,
the caller is told the operation succeeded. -/
theorem C7_counterexample :
    (VS.addDocumentChecked (fun l => (l.length : Int)) false
      (VS.empty Int) "A" ["a".data]).2.1 = Except.ok () := rfl

/-- A list with a non-empty left part is non-empty. -/
theorem append_ne_nil_of_left {α : Type} {l r : List α} (h : l ≠ []) :
    l ++ r ≠ [] := by
  intro he
  rw [List.append_eq_nil] at he
  exact h he.1

/-- A list with a non-empty right part is non-empty. -/
theorem append_ne_nil_of_right {α : Type} {l r : List α} (h : r ≠ []) :
    l ++ r ≠ [] := by
  intro he
  rw [List.append_eq_nil] at he
  exact h he.2

/-- A lower bound of the seed and all elements bounds the folded minimum. -/
theorem le_foldr_min {k init : Nat} {xs : List Nat}
    (hx : ∀ x ∈ xs, k ≤ x) (hi : k ≤ init) : k ≤ xs.foldr min init := by
  induction xs with
  | nil => exact hi
  | cons a as ih =>
    simp only [List.foldr_cons]
    exact le_min (hx a (List.mem_cons_self ..))
      (ih fun x hxm => hx x (List.mem_cons_of_mem _ hxm))

/-- A successful `findSome?` comes from some element of the list. -/
theorem exists_of_findSome?_some {α β : Type} {f : α → Option β} {b : β} :
    ∀ {l : List α}, l.findSome? f = some b → ∃ a ∈ l, f a = some b := by
  intro l
  induction l with
  | nil => intro h; cases h
  | cons a as ih =>
    intro h
    rw [List.findSome?_cons] at h
    split at h
    · rename_i v hv
      exact ⟨a, List.mem_cons_self .., hv.trans h⟩
    · rcases ih h with ⟨x, hx, hfx⟩
      exact ⟨x, List.mem_cons_of_mem _ hx, hfx⟩

namespace Py

/-- A successful `find?` reports a position where the pattern starts. -/
theorem find?_drop (text pat : List Char) :
    ∀ {p : Nat}, Py.find? text pat = some p → pat <+: text.drop p := by
  induction text with
  | nil =>
    intro p h
    unfold Py.find? at h
    split at h
    · rename_i hpat
      injection h with h1
      rw [← h1, hpat]
      exact List.nil_prefix
    · cases h
  | cons c cs ih =>
    intro p h
    unfold Py.find? at h
    split at h
    · rename_i hpre
      injection h with h1
      rw [← h1]
      exact hpre
    · cases hf : Py.find? cs pat with
      | none => rw [hf] at h; cases h
      | some q =>
        rw [hf] at h
        injection h with h1
        rw [← h1]
        simpa using ih hf

end Py

namespace Pipe

/-- A found position is at or after the search start. -/
theorem findFrom_ge {text pat : List Char} {s0 p : Nat}
    (h : findFrom text pat s0 = some p) : s0 ≤ p := by
  unfold findFrom at h
  cases hf : Py.find? (text.drop s0) pat with
  | none => rw [hf] at h; cases h
  | some q =>
    rw [hf] at h
    simp only [Option.map, Option.some.injEq] at h
    omega

/-- The section end lies strictly after the section start. -/
theorem endPosOf_ge {ai_text : List Char} {start : Nat}
    (endM : List (List Char)) (hlen : start < ai_text.length) :
    start + 1 ≤ endPosOf ai_text start endM := by
  unfold endPosOf
  refine le_foldr_min ?_ (by omega)
  intro x hx
  rcases List.mem_filterMap.mp hx with ⟨m, _, hm⟩
  have := findFrom_ge hm
  omega

/-- A non-space letter surviving `Char.toLower` came from a non-space,
non-marker character. -/
theorem good_of_toLower {a0 c0 : Char} (h : Char.toLower a0 = c0)
    (hs : ¬Py.isSpace c0 = true) (hst : c0 ≠ '*') (hu : c0 ≠ '_') :
    ¬Py.isSpace a0 = true ∧ a0 ≠ '*' ∧ a0 ≠ '_' := by
  refine ⟨?_, ?_, ?_⟩
  · intro hsp
    have heq : Char.toLower a0 = a0 := by
      simp [Py.isSpace] at hsp
      rcases hsp with (((((rfl | rfl) | rfl) | rfl) | rfl) | rfl) <;> decide
    rw [heq] at h
    subst h
    exact hs hsp
  · intro ha
    apply hst
    rw [← h, ha]
    decide
  · intro ha
    apply hu
    rw [← h, ha]
    decide

/-- A cleaned section slice keeps the first character of its start
marker, hence is non-empty. -/
theorem clean_slice_ne_nil (ai_text : List Char) (c0 : Char)
    (ms : List Char) (hs : ¬Py.isSpace c0 = true) (hst : c0 ≠ '*')
    (hu : c0 ≠ '_') (start : Nat) (endM : List (List Char))
    (hfind : Py.find? (Py.lower ai_text) (c0 :: ms) = some start) :
    Clean.cleanAiResponse (sliceSection ai_text start endM) ≠ [] := by
  have hpre := Py.find?_drop _ _ hfind
  have hmapdrop : (Py.lower ai_text).drop start =
      Py.lower (ai_text.drop start) := by
    unfold Py.lower
    rw [List.map_drop]
  rw [hmapdrop] at hpre
  cases hd : ai_text.drop start with
  | nil =>
    rw [hd] at hpre
    unfold Py.lower at hpre
    simp at hpre
  | cons a0 rest =>
    rw [hd] at hpre
    unfold Py.lower at hpre
    rw [List.map_cons] at hpre
    have hc0 : Char.toLower a0 = c0 := by
      rcases hpre with ⟨t, ht⟩
      rw [List.cons_append] at ht
      injection ht with h1 _
      exact h1.symm
    obtain ⟨hns, hnst, hnu⟩ := good_of_toLower hc0 hs hst hu
    have hlen : start < ai_text.length := by
      by_contra hge
      rw [List.drop_eq_nil_of_le (by omega)] at hd
      cases hd
    have hend := endPosOf_ge endM hlen
    have hmem : a0 ∈ (ai_text.drop start).take
        (endPosOf ai_text start endM - start) := by
      rw [hd]
      obtain ⟨k, hk⟩ : ∃ k, endPosOf ai_text start endM - start = k + 1 :=
        ⟨endPosOf ai_text start endM - start - 1, by omega⟩
      rw [hk, List.take_succ_cons]
      exact List.mem_cons_self ..
    have hmem2 : a0 ∈ sliceSection ai_text start endM := by
      unfold sliceSection
      exact Py.mem_strip hmem hns
    exact List.ne_nil_of_mem (Clean.mem_clean_of_good hmem2 hns hnst hnu)

/-- The extracted risks section is never empty. -/
theorem extractRisks_ne_nil (ai_text : List Char) :
    extractRisks ai_text ≠ [] := by
  unfold extractRisks
  split
  · decide
  · rename_i start heq
    obtain ⟨m, hmem, hfind⟩ := exists_of_findSome?_some heq
    split
    · exact append_ne_nil_of_right (by decide)
    · simp only [riskStartMarkers, List.mem_cons,
        List.not_mem_nil, or_false] at hmem
      rcases hmem with rfl | rfl | rfl | rfl
      · exact clean_slice_ne_nil _ 'k' "ey risks".data (by decide)
          (by decide) (by decide) _ _ hfind
      · exact clean_slice_ne_nil _ 'r' "isks:".data (by decide)
          (by decide) (by decide) _ _ hfind
      · exact clean_slice_ne_nil _ 'r' "isk assessment".data (by decide)
          (by decide) (by decide) _ _ hfind
      · exact clean_slice_ne_nil _ 'c' "oncerns".data (by decide)
          (by decide) (by decide) _ _ hfind

/-- The extracted key-terms section is never empty. -/
theorem extractTerms_ne_nil (ai_text : List Char) :
    extractTerms ai_text ≠ [] := by
  unfold extractTerms
  split
  · decide
  · rename_i start heq
    obtain ⟨m, hmem, hfind⟩ := exists_of_findSome?_some heq
    split
    · exact append_ne_nil_of_right (by decide)
    · simp only [termStartMarkers, List.mem_cons,
        List.not_mem_nil, or_false] at hmem
      rcases hmem with rfl | rfl | rfl
      · exact clean_slice_ne_nil _ 'i' "mportant terms".data (by decide)
          (by decide) (by decide) _ _ hfind
      · exact clean_slice_ne_nil _ 'k' "ey terms".data (by decide)
          (by decide) (by decide) _ _ hfind
      · exact clean_slice_ne_nil _ 't' "erms:".data (by decide)
          (by decide) (by decide) _ _ hfind

/-- A join headed by a non-empty part is non-empty. -/
theorem joinStr_head_ne_nil (sep p : List Char) (rest : List (List Char))
    (hp : p ≠ []) : joinStr sep (p :: rest) ≠ [] := by
  cases rest with
  | nil => simpa [joinStr] using hp
  | cons q qs =>
    rw [joinStr]
    exact append_ne_nil_of_left (append_ne_nil_of_left hp)

/-- The `key_terms` field of the basic analysis is never empty. -/
theorem keyTermsOf_ne_nil (text : List Char) : keyTermsOf text ≠ [] := by
  unfold keyTermsOf
  split
  · decide
  · rename_i hterms
    cases hEB : extractBasicTerms (Py.lower text) with
    | nil => exact absurd hEB hterms
    | cons q qs =>
      rw [List.map_cons]
      exact joinStr_head_ne_nil _ _ _ (append_ne_nil_of_left (by decide))

/-- The `risks_analysis` field of the basic analysis is never empty. -/
theorem risksAnalysisOf_ne_nil (text : List Char) :
    risksAnalysisOf text ≠ [] := by
  unfold risksAnalysisOf
  split
  · decide
  · exact append_ne_nil_of_left
      (append_ne_nil_of_left (append_ne_nil_of_left (by decide)))

/-- A successful `_analyze_with_ai` extracts its risks and terms from the
cleaned response. -/
theorem analyzeWithAI_aiOk {ai : AIOutcome} {text s af dt r t : List Char}
    (h : analyzeWithAI ai text = AIAnalysis.aiOk s af dt r t) :
    ∃ raw : List Char,
      r = extractRisks (Clean.cleanAiResponse (Py.strip raw)) ∧
      t = extractTerms (Clean.cleanAiResponse (Py.strip raw)) := by
  cases ai with
  | absent =>
    simp only [analyzeWithAI] at h
    cases h
  | failure msg =>
    simp only [analyzeWithAI] at h
    split at h <;> cases h
  | success raw =>
    simp only [analyzeWithAI] at h
    split at h
    · cases h
    · split at h
      · cases h
      · unfold aiOkOf at h
        injection h with h1 h2 h3 h4 h5
        exact ⟨raw, h4.symm, h5.symm⟩

/-- The basic Q&A answer is always a non-empty string. -/
theorem answerBasic_ne_nil (text question : List Char) :
    answerBasic text question ≠ [] := by
  unfold answerBasic
  split
  · decide
  · split
    · exact append_ne_nil_of_left (append_ne_nil_of_left (by decide))
    · exact append_ne_nil_of_left (append_ne_nil_of_left (by decide))

end Pipe

/-- The error analysis carries the fixed key-terms placeholder. -/
theorem createErrorAnalysis_key_terms (did : String) (msg : List Char) :
    (Pipe.createErrorAnalysis did msg).key_terms =
      "Could not extract key terms".data := rfl

/-- The error analysis carries the fixed risks placeholder. -/
theorem createErrorAnalysis_risks (did : String) (msg : List Char) :
    (Pipe.createErrorAnalysis did msg).risks_analysis =
      "Could not analyze risks due to processing error".data := rfl

/-- The `key_terms` field of the basic analysis. -/
theorem analyzeBasic_key_terms (t : List Char) (did : String) :
    (Pipe.analyzeBasic t did).key_terms =
      Pipe.keyTermsOf (Pipe.basicText t) := rfl

/-- The `risks_analysis` field of the basic analysis. -/
theorem analyzeBasic_risks (t : List Char) (did : String) :
    (Pipe.analyzeBasic t did).risks_analysis =
      Pipe.risksAnalysisOf (Pipe.basicText t) := rfl

/-- C3.  For every pipeline state, document id and question — the empty,
missing-document and short-text cases included — `answer_question` with
the external model absent (`ai_available = False`) or raising on every
call returns a non-empty string; the embedding is a total function, so no
exception reaches the caller (every AI exception is caught and falls
through to the basic keyword path, whose branches all build non-empty
strings). -/
theorem C3_answer_total_nonempty (ai : Pipe.AIOutcome) (st : Pipe.PState)
    (document_id : String) (question : List Char)
    (hai : ai = Pipe.AIOutcome.absent ∨
      ∃ msg, ai = Pipe.AIOutcome.failure msg) :
    Pipe.answerQuestion ai st document_id question ≠ [] := by
  unfold Pipe.answerQuestion
  split
  · decide
  · split
    · decide
    · split
      · decide
      · rcases hai with rfl | ⟨msg, rfl⟩
        · exact Pipe.answerBasic_ne_nil _ _
        · exact Pipe.answerBasic_ne_nil _ _

/-- C3 witness: the theorem applied with the model absent, at a state
that does not know the document. -/
theorem C3_answer_total_nonempty_witness :
    (Pipe.AIOutcome.absent = Pipe.AIOutcome.absent ∨
      ∃ msg, Pipe.AIOutcome.absent = Pipe.AIOutcome.failure msg) ∧
    Pipe.answerQuestion Pipe.AIOutcome.absent ⟨[], []⟩ "d" "x".data ≠ [] :=
  ⟨Or.inl rfl,
    C3_answer_total_nonempty Pipe.AIOutcome.absent ⟨[], []⟩ "d" "x".data
      (Or.inl rfl)⟩

/-- C5.  For every AI outcome, document list (empty lists and empty texts
included) and document id, `analyze_document` returns an analysis whose
`key_terms` and `risks_analysis` fields are non-empty strings: the error
analysis uses fixed placeholders, the basic analysis substitutes
placeholder entries when nothing is found, and the AI extraction either
falls back to a fixed sentence or keeps a marker character through the
cleaning pipeline. -/
theorem C5_analysis_nonempty (ai : Pipe.AIOutcome)
    (docs : List (List Char)) (document_id : String) :
    (Pipe.analyzeDocument ai docs document_id).key_terms ≠ [] ∧
    (Pipe.analyzeDocument ai docs document_id).risks_analysis ≠ [] := by
  unfold Pipe.analyzeDocument
  split
  · rw [createErrorAnalysis_key_terms, createErrorAnalysis_risks]
    exact ⟨by decide, by decide⟩
  · split
    · rw [createErrorAnalysis_key_terms, createErrorAnalysis_risks]
      exact ⟨by decide, by decide⟩
    · split
      · split
        · dsimp only
          rw [analyzeBasic_key_terms, analyzeBasic_risks]
          exact ⟨Pipe.keyTermsOf_ne_nil _, Pipe.risksAnalysisOf_ne_nil _⟩
        · rename_i s af dt r t heq
          obtain ⟨raw, hr, ht⟩ := Pipe.analyzeWithAI_aiOk heq
          dsimp only
          rw [hr, ht]
          exact ⟨Pipe.extractTerms_ne_nil _, Pipe.extractRisks_ne_nil _⟩
      · rw [analyzeBasic_key_terms, analyzeBasic_risks]
        exact ⟨Pipe.keyTermsOf_ne_nil _, Pipe.risksAnalysisOf_ne_nil _⟩

/-- C10.  For a known document id and a non-empty question, when the
retrievable full text strips to fewer than 20 characters,
`answer_question` returns the fixed short-text message for EVERY AI
outcome — the AI and keyword paths are behind this guard and are never
consulted. -/
theorem C10_short_text (ai : Pipe.AIOutcome) (st : Pipe.PState)
    (document_id : String) (question : List Char)
    (hdid : document_id ≠ "") (hq : question ≠ [])
    (hknown : Pipe.lookupId st.documents document_id ≠ none ∨
      Pipe.lookupId st.vstore document_id ≠ none)
    (hshort : (Py.strip (Pipe.fullTextOf st document_id)).length < 20) :
    Pipe.answerQuestion ai st document_id question =
      "Document text is not available or too short for analysis. Please try re-uploading the document.".data := by
  have h2 : ¬(Pipe.lookupId st.vstore document_id = none ∧
      Pipe.lookupId st.documents document_id = none) := by
    intro hc
    rcases hknown with h | h
    · exact h hc.2
    · exact h hc.1
  unfold Pipe.answerQuestion
  rw [if_neg (by push_neg; exact ⟨hdid, hq⟩), if_neg h2,
    if_pos (Or.inr hshort)]

/-- C10 witness: a stored five-character document answers every question
with the short-text message, even with a successful model attached. -/
theorem C10_short_text_witness :
    ("d" : String) ≠ "" ∧
    Pipe.answerQuestion (Pipe.AIOutcome.success "IGNORED".data)
      ⟨[("d", "short".data)], []⟩ "d" "x".data =
      "Document text is not available or too short for analysis. Please try re-uploading the document.".data :=
  ⟨by decide,
    C10_short_text (Pipe.AIOutcome.success "IGNORED".data)
      ⟨[("d", "short".data)], []⟩ "d" "x".data (by decide) (by decide)
      (Or.inl (by decide)) (by decide)⟩

/-- C1 witness: the theorem applied after deleting the only document. -/
theorem C1_deleted_never_returned_witness :
    (∀ op ∈ ([] : List VS.Op), ∀ chunks, op ≠ VS.Op.add "A" chunks) ∧
    ∀ r ∈ VS.search (fun a b : Int => a * b) (fun l => (l.length : Int))
        (VS.runFrom (fun l => (l.length : Int))
          (VS.deleteDocument
            (VS.run (fun l => (l.length : Int))
              [VS.Op.add "A" ["aa".data]]) "A") [])
        "q".data none 3,
      ∃ kv ∈ (VS.runFrom (fun l => (l.length : Int))
          (VS.deleteDocument
            (VS.run (fun l => (l.length : Int))
              [VS.Op.add "A" ["aa".data]]) "A") []).documents,
        kv.1 ≠ "A" ∧ r.1 ∈ kv.2.chunks :=
  ⟨fun op hop => absurd hop (List.not_mem_nil op),
    C1_deleted_never_returned (fun a b : Int => a * b)
      (fun l => (l.length : Int))
      (VS.run (fun l => (l.length : Int)) [VS.Op.add "A" ["aa".data]])
      "A" [] (fun op hop => absurd hop (List.not_mem_nil op))
      "q".data none 3⟩

/-- C4 witness: the theorem applied to a whitespace-only input. -/
theorem C4_chunker_nonempty_witness :
    (∀ c ∈ "  ".data, Py.isSpace c) ∧
    App.basicChunks "f".data "  ".data =
      [("File ".data ++ "f".data ++ " uploaded but no text extracted".data)] :=
  ⟨by decide, (C4_chunker_nonempty "f".data "  ".data).2 (by decide)⟩
